import Mathlib

/-!
Shallow embedding of the calbridge-sync core (TypeScript) in Lean 4, together
with theorems settling the frozen specification claims.

Conventions of the embedding:
* JavaScript epoch-millisecond timestamps are `Int`.
* JavaScript `null`-able values are `Option`.
* JavaScript `Map` objects are association lists with `Map.set` keeping the
  original insertion position (`jsSet`), as in V8.
* ICS identity tokens are ISO-8601 strings in the source (`YYYY-MM-DD` for
  all-day values, a full instant string otherwise).  Equality is the only
  operation performed on them, and the formatting maps are injective on their
  shapes, so tokens are modelled by their content: the UTC day index for the
  all-day shape and the epoch instant otherwise.
-/

set_option linter.unusedVariables false

namespace CalBridge

/-! ## Generic JavaScript-map helpers -/

/-- Model of `Map.set` on an association list: replace the first entry with the
given key in place (V8 keeps the original insertion position), or append. -/
def jsSet {α : Type} (m : List (String × α)) (k : String) (v : α) :
    List (String × α) :=
  match m with
  | [] => [(k, v)]
  | (k', v') :: rest =>
    if k' = k then (k, v) :: rest else (k', v') :: jsSet rest k v

/-- Model of `Map.get`: first entry with the given key, if any. -/
def jsGet {α : Type} (m : List (String × α)) (k : String) : Option α :=
  match m with
  | [] => none
  | (k', v) :: rest => if k' = k then some v else jsGet rest k

/-! ## Window overlap (src/clients/ics-feed.ts, overlapsWindow) -/

/-- Transcription of `overlapsWindow`: a half-open interval overlap test. -/
def overlapsWindow (eventStartMs eventEndMs windowStartMs windowEndMs : Int) :
    Bool :=
  eventEndMs > windowStartMs && eventStartMs < windowEndMs

/-! ## Stale-mapping detection (src/sync/reconcile.ts) -/

/-- Transcription of `findStaleOutlookIds`: mapped identities absent from the
active set.  The JS `Set` argument is modelled by a list queried with `has`
(membership). -/
def findStaleOutlookIds (mappedOutlookIds : List String)
    (activeOutlookIds : List String) : List String :=
  mappedOutlookIds.filter (fun mappedId => !(activeOutlookIds.contains mappedId))

/-- Transcription of `findStaleSourceIds`, the byte-identical sibling of
`findStaleOutlookIds` in src/sync/reconcile.ts. -/
def findStaleSourceIds (mappedSourceIds : List String)
    (activeSourceIds : List String) : List String :=
  mappedSourceIds.filter (fun mappedId => !(activeSourceIds.contains mappedId))

/-! ## Canonical occurrence shape (src/sync/types.ts, SourceEvent) -/

/-- Transcription of the `EventTime` shape (`{date?, dateTime?, timeZone?}`). -/
structure EventTime where
  date : Option String
  dateTime : Option String
  timeZone : Option String
deriving DecidableEq

/-- Transcription of `SourceEvent` from src/sync/types.ts.  The `start`/`end`
fields are renamed `startTime`/`endTime` because `end` is reserved in Lean. -/
structure SourceEvent where
  id : String
  iCalUid : Option String
  title : String
  description : String
  location : String
  startTime : EventTime
  endTime : EventTime
  isAllDay : Bool
  isCancelled : Bool
  lastModifiedDateTime : Option String
  reminderMinutesBeforeStart : Option Int
  isRecurringMaster : Bool
  seriesMasterId : Option String
deriving DecidableEq

/-! ## Destination payload mapping (src/sync/mapper.ts) -/

/-- Reminder override entry of the Google payload (`{method: "popup", minutes}`). -/
structure ReminderOverride where
  method : String
  minutes : Int
deriving DecidableEq

/-- Reminder block of the Google payload.  A missing `overrides` array is
modelled by the empty list. -/
structure EventReminders where
  useDefault : Bool
  overrides : List ReminderOverride
deriving DecidableEq

/-- Transcription of `buildReminder` from src/sync/mapper.ts: `null` or a
negative lead time falls back to the calendar default; otherwise a single popup
override clamped to `[0, 40320]` minutes. -/
def buildReminder (reminderMinutesBeforeStart : Option Int) : EventReminders :=
  match reminderMinutesBeforeStart with
  | none => { useDefault := true, overrides := [] }
  | some v =>
    if v < 0 then { useDefault := true, overrides := [] }
    else
      { useDefault := false
        overrides := [{ method := "popup", minutes := max 0 (min v 40320) }] }

/-- Application marker constant from src/sync/mapper.ts. -/
def APP_MARKER : String := "outlook-google-sync"

/-- Transcription of `GoogleEventInput` (src/clients/google-calendar.ts), with
the extended-properties map flattened to its private key/value list. -/
structure GoogleEventInput where
  summary : String
  description : String
  location : Option String
  startTime : EventTime
  endTime : EventTime
  reminders : EventReminders
  privateProps : List (String × String)
deriving DecidableEq

/-- Transcription of `toGoogleEventPayload` from src/sync/mapper.ts.  The JS
`source.location || undefined` sends the empty string to `undefined`. -/
def toGoogleEventPayload (source : SourceEvent) (subscriptionId : String)
    (sourceMode : String) : GoogleEventInput :=
  { summary := source.title
    description := source.description
    location := if source.location = "" then none else some source.location
    startTime := source.startTime
    endTime := source.endTime
    reminders := buildReminder source.reminderMinutesBeforeStart
    privateProps :=
      [("app", APP_MARKER), ("source", sourceMode), ("source_mode", sourceMode),
       ("subscription_id", subscriptionId), ("source_event_id", source.id),
       ("outlook_event_id", source.id)] }

/-! ## ICS identity tokens and intermediate events (src/clients/ics-feed.ts) -/

/-- Content of an ICS identity token.  In the source, `toTemporalIdentityToken`
renders the UTC day string `YYYY-MM-DD` for all-day values and the full ISO
instant otherwise; both renderings are injective and the two shapes are
disjoint, so a token is modelled by its shape plus its numeric content
(the UTC day index, respectively the epoch instant in milliseconds). -/
inductive TemporalToken where
  | allDayTok (dayIndex : Int)
  | instantTok (epochMs : Int)
deriving DecidableEq

/-- Model of `toTemporalIdentityToken(isAllDay, startMs, toUtcDateString(startMs))`:
the all-day token keeps only the UTC calendar day of the start instant. -/
def toTemporalIdentityToken (isAllDay : Bool) (startMs : Int) : TemporalToken :=
  if isAllDay then .allDayTok (startMs.fdiv 86400000) else .instantTok startMs

/-- Content of a final event identity.  In the source an id is either the UID
string or `uid + "::" + token`; the two shapes are kept apart structurally. -/
inductive EventId where
  | plain (uid : String)
  | withToken (uid : String) (token : TemporalToken)
deriving DecidableEq

/-- Transcription of `IntermediateEvent` from src/clients/ics-feed.ts, with the
wrapped `SourceEvent` fields that the parser logic reads (id, title,
cancellation, last-modified) inlined.  `lastModifiedMs` holds the epoch value
of a parseable `LAST-MODIFIED` instant, `none` otherwise (`getLastModifiedEpoch`
then falls back to the start instant). -/
structure IntermediateEvent where
  id : EventId
  uid : String
  title : String
  startMs : Int
  endMs : Int
  durationMs : Int
  isAllDay : Bool
  isCancelled : Bool
  lastModifiedMs : Option Int
  hasRrule : Bool
  recurrenceId : Option TemporalToken
  occurrenceToken : TemporalToken
  exdateTokens : List TemporalToken
deriving DecidableEq

/-- Transcription of `getLastModifiedEpoch`: the parsed last-modified instant,
falling back to the entry's start instant. -/
def getLastModifiedEpoch (entry : IntermediateEvent) : Int :=
  match entry.lastModifiedMs with
  | some parsed => parsed
  | none => entry.startMs

/-- Transcription of `buildExpandedOccurrence`: one concrete instance of a
recurring master at the given interval, identified by `uid::token`. -/
def buildExpandedOccurrence (master : IntermediateEvent) (startMs endMs : Int) :
    IntermediateEvent :=
  let token := toTemporalIdentityToken master.isAllDay startMs
  { master with
    id := .withToken master.uid token
    startMs := startMs
    endMs := endMs
    durationMs := endMs - startMs
    hasRrule := false
    recurrenceId := some token
    occurrenceToken := token
    exdateTokens := [] }

/-- Body of the per-start loop of `expandRecurringMaster`: compute the
occurrence interval and token, skip exclusion-listed tokens, skip intervals
outside the window, otherwise emit the expanded occurrence. -/
def expandOne (master : IntermediateEvent) (windowStartMs windowEndMs : Int)
    (s : Int) : Option IntermediateEvent :=
  let startMs := s
  let endMs := s + master.durationMs
  let token := toTemporalIdentityToken master.isAllDay startMs
  if token ∈ master.exdateTokens then none
  else if !(overlapsWindow startMs endMs windowStartMs windowEndMs) then none
  else some (buildExpandedOccurrence master startMs endMs)

/-- Transcription of `expandRecurringMaster`.  The recurrence-rule engine (the
external `rrule` library) is represented by its outcome: `ruleStarts = none`
models the degraded paths (`RRuleCtor` missing, or `parseString`/iteration
throwing, caught by the surrounding try/catch), in which the master's own
interval is the only candidate; `ruleStarts = some starts` models a successful
`rule.between(window.start - duration, window.end, true)` search returning the
listed occurrence-start instants. -/
def expandRecurringMaster (master : IntermediateEvent)
    (ruleStarts : Option (List Int)) (windowStartMs windowEndMs : Int) :
    List IntermediateEvent :=
  if !master.hasRrule then []
  else
    match ruleStarts with
    | none =>
      if overlapsWindow master.startMs master.endMs windowStartMs windowEndMs then
        [master]
      else []
    | some starts => starts.filterMap (expandOne master windowStartMs windowEndMs)

/-! ## Override application (src/clients/ics-feed.ts, parseIcsToSourceEvents) -/

/-- Model of `Map.get` on the per-UID override map keyed by recurrence token. -/
def lookupToken (m : List (TemporalToken × IntermediateEvent))
    (t : TemporalToken) : Option IntermediateEvent :=
  match m with
  | [] => none
  | (k, v) :: rest => if k = t then some v else lookupToken rest t

/-- Model of `Map.delete` on the override map: remove the first entry with the
given key (a JS map holds at most one). -/
def deleteToken (m : List (TemporalToken × IntermediateEvent))
    (t : TemporalToken) : List (TemporalToken × IntermediateEvent) :=
  match m with
  | [] => []
  | (k, v) :: rest => if k = t then rest else (k, v) :: deleteToken rest t

/-- Transcription of the per-master selection loop of `parseIcsToSourceEvents`
(lines 740-752): each expanded occurrence whose recurrence token has a pending
override is replaced by that override when the override overlaps the window and
suppressed otherwise, consuming the override; occurrences without a matching
override are emitted as generated.  Returns the selected events and the
not-consumed overrides. -/
def applyOverrides (expanded : List IntermediateEvent)
    (ovs : List (TemporalToken × IntermediateEvent))
    (windowStartMs windowEndMs : Int) :
    List IntermediateEvent × List (TemporalToken × IntermediateEvent) :=
  match expanded with
  | [] => ([], ovs)
  | occ :: rest =>
    match occ.recurrenceId with
    | none =>
      let out := applyOverrides rest ovs windowStartMs windowEndMs
      (occ :: out.1, out.2)
    | some token =>
      match lookupToken ovs token with
      | none =>
        let out := applyOverrides rest ovs windowStartMs windowEndMs
        (occ :: out.1, out.2)
      | some override =>
        let out := applyOverrides rest (deleteToken ovs token) windowStartMs windowEndMs
        (if overlapsWindow override.startMs override.endMs windowStartMs windowEndMs then
          override :: out.1
         else out.1, out.2)

/-- Transcription of the trailing override loop of `parseIcsToSourceEvents`
(lines 755-761): overrides whose anchor matched no expanded occurrence are
emitted standalone when they overlap the window. -/
def emitLeftoverOverrides (ovs : List (TemporalToken × IntermediateEvent))
    (windowStartMs windowEndMs : Int) : List IntermediateEvent :=
  (ovs.map Prod.snd).filter
    (fun ov => overlapsWindow ov.startMs ov.endMs windowStartMs windowEndMs)

/-- Functional description of the fate of one expanded occurrence under the
override map: kept as generated when no override matches its token, replaced by
the overlapping override, suppressed by a non-overlapping one. -/
def mergeOne (ovs : List (TemporalToken × IntermediateEvent))
    (windowStartMs windowEndMs : Int) (occ : IntermediateEvent) :
    Option IntermediateEvent :=
  match occ.recurrenceId with
  | none => some occ
  | some token =>
    match lookupToken ovs token with
    | none => some occ
    | some override =>
      if overlapsWindow override.startMs override.endMs windowStartMs windowEndMs then
        some override
      else none

/-- Overrides whose key matches no recurrence token of the expanded list. -/
def unmatchedOverrides (expanded : List IntermediateEvent)
    (ovs : List (TemporalToken × IntermediateEvent)) :
    List (TemporalToken × IntermediateEvent) :=
  ovs.filter
    (fun p => decide (p.1 ∉ expanded.filterMap IntermediateEvent.recurrenceId))

/-- Selection pipeline of `parseIcsToSourceEvents` for one recurring series:
expansion, override application, then standalone emission of the remaining
overrides. -/
def processSeries (master : IntermediateEvent) (ruleStarts : Option (List Int))
    (ovs : List (TemporalToken × IntermediateEvent))
    (windowStartMs windowEndMs : Int) : List IntermediateEvent :=
  let expanded := expandRecurringMaster master ruleStarts windowStartMs windowEndMs
  let out := applyOverrides expanded ovs windowStartMs windowEndMs
  out.1 ++ emitLeftoverOverrides out.2 windowStartMs windowEndMs

/-! ## Deduplication (src/clients/ics-feed.ts, lines 763-769) -/

/-- Model of `Map.set` on the dedup map keyed by final event id. -/
def setById (m : List (EventId × IntermediateEvent)) (k : EventId)
    (v : IntermediateEvent) : List (EventId × IntermediateEvent) :=
  match m with
  | [] => [(k, v)]
  | (k', v') :: rest =>
    if k' = k then (k, v) :: rest else (k', v') :: setById rest k v

/-- Model of `Map.get` on the dedup map. -/
def getById (m : List (EventId × IntermediateEvent)) (k : EventId) :
    Option IntermediateEvent :=
  match m with
  | [] => none
  | (k', v) :: rest => if k' = k then some v else getById rest k

/-- Body of the dedup loop: a later entry replaces the stored one when its
last-modified epoch is greater than or equal to the stored one's. -/
def dedupeStep (m : List (EventId × IntermediateEvent))
    (entry : IntermediateEvent) : List (EventId × IntermediateEvent) :=
  match getById m entry.id with
  | none => setById m entry.id entry
  | some existing =>
    if getLastModifiedEpoch entry ≥ getLastModifiedEpoch existing then
      setById m entry.id entry
    else m

/-- Transcription of the dedup fold of `parseIcsToSourceEvents`. -/
def dedupeById (entries : List IntermediateEvent) :
    List (EventId × IntermediateEvent) :=
  entries.foldl dedupeStep []

/-! ## Text unescaping (src/clients/ics-feed.ts, unescapeIcsText) -/

/-- Model of one `String.prototype.replace` pass with a global two-character
pattern: every occurrence of a backslash followed by a character in `seconds`
is replaced by `repl`, scanning left to right without overlap (the regex
engine's global-replace semantics). -/
def replaceEscape (seconds : List Char) (repl : Char) : List Char → List Char
  | [] => []
  | [c] => [c]
  | c1 :: c2 :: rest =>
    if c1 = '\\' ∧ c2 ∈ seconds then repl :: replaceEscape seconds repl rest
    else c1 :: replaceEscape seconds repl (c2 :: rest)

/-- Transcription of `unescapeIcsText`: four sequential global replacements, in
source order `\n` (case-insensitive, hence also `\N`) to a newline, then `\,`
to a comma, then `\;` to a semicolon, then `\\` to a single backslash. -/
def unescapeIcsText (input : List Char) : List Char :=
  replaceEscape ['\\'] '\\'
    (replaceEscape [';'] ';'
      (replaceEscape [','] ','
        (replaceEscape ['n', 'N'] '\n' input)))

/-- Modelled from the spec: a single left-to-right decoding of the feed's
escape convention (`\n` to newline, `\,` to comma, `\;` to semicolon, `\\` to
backslash), each two-character escape consumed at once. -/
def singlePassDecode : List Char → List Char
  | [] => []
  | [c] => [c]
  | c1 :: c2 :: rest =>
    if c1 = '\\' ∧ c2 = 'n' then '\n' :: singlePassDecode rest
    else if c1 = '\\' ∧ c2 = ',' then ',' :: singlePassDecode rest
    else if c1 = '\\' ∧ c2 = ';' then ';' :: singlePassDecode rest
    else if c1 = '\\' ∧ c2 = '\\' then '\\' :: singlePassDecode rest
    else c1 :: singlePassDecode (c2 :: rest)

/-- Texts in which every backslash opens one of the simple escapes `\n`, `\,`,
`\;` (in particular no doubled backslash and no trailing backslash). -/
def simpleEscaped : List Char → Bool
  | [] => true
  | [c] => !(c = '\\')
  | c1 :: c2 :: rest =>
    if c1 = '\\' then
      (c2 = 'n' ∨ c2 = ',' ∨ c2 = ';') && simpleEscaped rest
    else simpleEscaped (c2 :: rest)

/-! ## Time-zone resolution and recurrence re-anchoring
(src/clients/ics-feed.ts, getTimeZoneOffsetMs / toEpochMsForTimeZone /
toFloatingUtcDate and the tzid path of expandRecurringMaster)

A named zone is represented by its offset function `off : Int → Int`, mapping
an absolute epoch instant to the zone's UTC offset in milliseconds at that
instant (the value `getTimeZoneOffsetMs` computes from the Intl wall-clock
fields: `Date.UTC(wall fields) - epochMs`). -/

/-- Model of `getWallClockPartsInTimeZone` collapsed to epoch arithmetic: the
zone wall-clock fields of instant `epochMs`, re-encoded through `Date.UTC`,
equal `epochMs + off epochMs`. -/
def wallClockAsUtcMs (off : Int → Int) (epochMs : Int) : Int :=
  epochMs + off epochMs

/-- Transcription of the convergence loop of `toEpochMsForTimeZone`: starting
from the wall-clock fields encoded as UTC (`localAsUtc`), refine the guessed
instant four times with the offset recomputed at the guess. -/
def toEpochMsForTimeZone (off : Int → Int) (localAsUtc : Int) : Int :=
  let g1 := localAsUtc - off localAsUtc
  let g2 := localAsUtc - off g1
  let g3 := localAsUtc - off g2
  let g4 := localAsUtc - off g3
  g4

/-- Transcription of `toFloatingUtcDate`: the zone wall-clock of the master's
start, re-encoded as a floating instant through `Date.UTC`. -/
def toFloatingUtcDate (off : Int → Int) (epochMs : Int) : Int :=
  wallClockAsUtcMs off epochMs

/-- Model of the `rrule` engine's documented tzid semantics for the floating
start instants the code feeds it: a generated floating wall-clock value is
re-anchored to the absolute instant whose wall clock in the recurrence zone
shows those fields, i.e. the zone-aware conversion `toEpochMsForTimeZone`. -/
def rezoneFloating (off : Int → Int) (floatingMs : Int) : Int :=
  toEpochMsForTimeZone off floatingMs

/-- Transcription of `normalizeRRuleOccurrenceMs` for a tzid recurrence: the
emitted instant's UTC fields are rebuilt through the process-local `Date`
constructor.  `procOff` is the Node process zone's offset function; the
daemon's reference environment (the one its own test expectations encode) runs
with a UTC process clock, i.e. `procOff = fun _ => 0`. -/
def normalizeRRuleOccurrenceMs (procOff : Int → Int) (hasTimeZoneRule : Bool)
    (occurrenceMs : Int) : Int :=
  if !hasTimeZoneRule then occurrenceMs
  else toEpochMsForTimeZone procOff occurrenceMs

/-- Floating start instants of a `FREQ=WEEKLY` rule anchored at `floatingStart`:
the rule engine steps the floating wall clock in exact weeks. -/
def weeklyFloatStarts (floatingStart : Int) (count : Nat) : List Int :=
  (List.range count).map (fun k => floatingStart + 604800000 * (k : Int))

/-- Start instants the tzid path of `expandRecurringMaster` obtains for a
weekly rule: the master's start converted to a floating wall clock
(`toFloatingUtcDate`), stepped weekly by the rule engine, re-anchored to
absolute instants per occurrence, then passed through
`normalizeRRuleOccurrenceMs` with a UTC process clock. -/
def weeklyTzRuleStarts (off : Int → Int) (masterStartMs : Int) (count : Nat) :
    List Int :=
  (weeklyFloatStarts (toFloatingUtcDate off masterStartMs) count).map
    (fun f => normalizeRRuleOccurrenceMs (fun _ => 0) true (rezoneFloating off f))

/-- Whole tzid expansion path of `expandRecurringMaster` for a weekly rule. -/
def expandWeeklyTzMaster (off : Int → Int) (master : IntermediateEvent)
    (count : Nat) (windowStartMs windowEndMs : Int) : List IntermediateEvent :=
  expandRecurringMaster master
    (some (weeklyTzRuleStarts off master.startMs count)) windowStartMs windowEndMs

/-- Offset function of America/Toronto on the interval from the 2025 spring
transition to the 2026 spring transition: eastern daylight time (UTC-4h) until
2025-11-02T06:00Z, eastern standard time (UTC-5h) until 2026-03-08T07:00Z,
then daylight time again. -/
def torontoOffsetMs (epochMs : Int) : Int :=
  if epochMs < 1762063200000 then -14400000
  else if epochMs < 1772953200000 then -18000000
  else -14400000

/-! ## Reconciliation cycle (src/sync/service.ts, SyncService.runCycle)

The cycle is embedded for one subscription.  The Google destination is
represented by the set of live destination event ids plus a fresh-id supply
(`createEvent` returns a new id); the payload content does not influence any
claim about the cycle.  `EventMapping` keeps the fields the cycle logic reads
(the correlation pair); `updateEvent` succeeds exactly when the stored
destination id still exists and fails with HTTP 404 otherwise, and
`deleteEvent` treats an already-absent id as success (it returns `false` on
404 rather than throwing). -/

/-- Correlation record of the mapping store (db.ts `EventMapping`), reduced to
the fields `runCycle` consults for one subscription. -/
structure EventMapping where
  sourceEventId : String
  googleEventId : Nat
deriving DecidableEq

/-- Destination calendar state: live event ids and the fresh-id supply. -/
structure DestState where
  events : List Nat
  nextId : Nat
deriving DecidableEq

/-- Durable state a cycle reads and writes: the subscription's mapping records
and the destination calendar. -/
structure SyncState where
  mappings : List EventMapping
  dest : DestState
deriving DecidableEq

/-- Transcription of `SyncMetrics` from src/sync/types.ts. -/
structure SyncMetrics where
  fetched : Nat
  considered : Nat
  created : Nat
  updated : Nat
  deleted : Nat
deriving DecidableEq

/-- Model of `db.upsertMapping` restricted to one subscription: replace the
record with the same source-event id, or insert. -/
def upsertMapping (ms : List EventMapping) (k : String) (g : Nat) :
    List EventMapping :=
  match ms with
  | [] => [{ sourceEventId := k, googleEventId := g }]
  | m :: rest =>
    if m.sourceEventId = k then { sourceEventId := k, googleEventId := g } :: rest
    else m :: upsertMapping rest k g

/-- Model of `db.deleteMapping`: drop every record with the given id. -/
def deleteMapping (ms : List EventMapping) (k : String) : List EventMapping :=
  ms.filter (fun m => m.sourceEventId ≠ k)

/-- Construction of `activeEventsById`: non-cancelled events keyed by id
through `Map.set`. -/
def buildActive (events : List SourceEvent) : List (String × SourceEvent) :=
  events.foldl (fun acc e => if e.isCancelled then acc else jsSet acc e.id e) []

/-- Construction of `mappingBySourceEventId`: the mapping list loaded once at
the start of the cycle, keyed by source-event id through `Map.set`. -/
def mappingSnapshot (ms : List EventMapping) : List (String × Nat) :=
  ms.foldl (fun acc m => jsSet acc m.sourceEventId m.googleEventId) []

/-- Transcription of the create/update loop of `runCycle` (lines 49-83): a
missing mapping triggers a create; an existing mapping triggers an update,
with an HTTP-404 result (the stored destination id no longer live) healed by a
recreate that overwrites the mapping. -/
def processActive (active : List (String × SourceEvent))
    (snapshot : List (String × Nat)) (st : SyncState) (m : SyncMetrics) :
    SyncState × SyncMetrics :=
  match active with
  | [] => (st, m)
  | (_, e) :: rest =>
    match jsGet snapshot e.id with
    | none =>
      let g := st.dest.nextId
      let st1 : SyncState :=
        { mappings := upsertMapping st.mappings e.id g
          dest := { events := st.dest.events ++ [g], nextId := g + 1 } }
      processActive rest snapshot st1 { m with created := m.created + 1 }
    | some g =>
      if g ∈ st.dest.events then
        let st1 : SyncState := { st with mappings := upsertMapping st.mappings e.id g }
        processActive rest snapshot st1 { m with updated := m.updated + 1 }
      else
        let g2 := st.dest.nextId
        let st1 : SyncState :=
          { mappings := upsertMapping st.mappings e.id g2
            dest := { events := st.dest.events ++ [g2], nextId := g2 + 1 } }
        processActive rest snapshot st1 { m with created := m.created + 1 }

/-- Transcription of the stale-deletion loop of `runCycle` (lines 90-102):
delete the destination event recorded for each stale id (already-gone treated
as success) and remove the mapping record. -/
def processStale (stale : List String) (snapshot : List (String × Nat))
    (st : SyncState) (m : SyncMetrics) : SyncState × SyncMetrics :=
  match stale with
  | [] => (st, m)
  | sid :: rest =>
    match jsGet snapshot sid with
    | none => processStale rest snapshot st m
    | some g =>
      let st1 : SyncState :=
        { mappings := deleteMapping st.mappings sid
          dest := { st.dest with events := st.dest.events.erase g } }
      processStale rest snapshot st1 { m with deleted := m.deleted + 1 }

/-- Transcription of `SyncService.runCycle` for one subscription, with the
source's canonical occurrence list passed in (the `sourceClient.listEvents`
result for the fixed window; its `fetchedCount` is the list length here). -/
def runCycle (events : List SourceEvent) (st : SyncState) :
    SyncState × SyncMetrics :=
  let active := buildActive events
  let snapshot := mappingSnapshot st.mappings
  let m0 : SyncMetrics :=
    { fetched := events.length, considered := events.length,
      created := 0, updated := 0, deleted := 0 }
  let out := processActive active snapshot st m0
  let stale := findStaleOutlookIds (snapshot.map Prod.fst) (active.map Prod.fst)
  processStale stale snapshot out.1 out.2

/-- Well-formedness of a durable state: mapping keys are distinct (database
primary key), destination ids of distinct mappings are distinct, the
destination event list holds no duplicates, and the fresh-id supply dominates
every id in use. -/
def goodState (st : SyncState) : Prop :=
  (st.mappings.map (·.sourceEventId)).Nodup ∧
  (st.mappings.map (·.googleEventId)).Nodup ∧
  st.dest.events.Nodup ∧
  (∀ m ∈ st.mappings, m.googleEventId < st.dest.nextId) ∧
  (∀ g ∈ st.dest.events, g < st.dest.nextId)

/-- Destination id recorded for a source-event id: first matching record. -/
def mappingGid (ms : List EventMapping) (k : String) : Option Nat :=
  match ms with
  | [] => none
  | m :: rest => if m.sourceEventId = k then some m.googleEventId else mappingGid rest k

/-- State in which a source list is fully mirrored: every active occurrence has
a mapping whose destination event is live, and every mapping belongs to an
active occurrence. -/
def synced (events : List SourceEvent) (st : SyncState) : Prop :=
  (∀ p ∈ buildActive events, ∃ g, mappingGid st.mappings p.1 = some g ∧
    g ∈ st.dest.events) ∧
  (∀ m ∈ st.mappings, m.sourceEventId ∈ (buildActive events).map Prod.fst)

/-- Postcondition of the create/update loop relative to its entry state:
well-formedness, a monotone destination, a live mapping for every processed
occurrence (fresh id or the snapshot's id), untouched unprocessed keys, and no
mapping key out of nowhere. -/
def activeLoopPost (snapshot : List (String × Nat))
    (active : List (String × SourceEvent)) (st out : SyncState) : Prop :=
  goodState out ∧
  st.dest.nextId ≤ out.dest.nextId ∧
  (∀ x ∈ st.dest.events, x ∈ out.dest.events) ∧
  (∀ p ∈ active, ∃ g, mappingGid out.mappings p.1 = some g ∧
    g ∈ out.dest.events ∧ (st.dest.nextId ≤ g ∨ jsGet snapshot p.1 = some g)) ∧
  (∀ k, k ∉ active.map Prod.fst →
    mappingGid out.mappings k = mappingGid st.mappings k) ∧
  (∀ m1 ∈ out.mappings, m1.sourceEventId ∈ st.mappings.map (·.sourceEventId) ∨
    m1.sourceEventId ∈ active.map Prod.fst)

/-- Postcondition of the stale-deletion loop relative to its entry state:
active keys and their live destination events survive, the store and the
destination only shrink, and every stale id with a snapshot entry loses both
its mapping record and its destination event. -/
def staleLoopPost (snapshot : List (String × Nat)) (activeKeys : List String)
    (stale : List String) (st out : SyncState) : Prop :=
  (∀ k ∈ activeKeys, mappingGid out.mappings k = mappingGid st.mappings k) ∧
  (∀ k ∈ activeKeys, ∀ g, mappingGid st.mappings k = some g →
    g ∈ st.dest.events → g ∈ out.dest.events) ∧
  (∀ x ∈ out.dest.events, x ∈ st.dest.events) ∧
  out.dest.events.Nodup ∧
  List.Sublist out.mappings st.mappings ∧
  (∀ sid ∈ stale, ∀ g, jsGet snapshot sid = some g →
    (∀ m1 ∈ out.mappings, ¬ m1.sourceEventId = sid) ∧ g ∉ out.dest.events)

/-! ## Concrete sample data used by witnesses and counterexamples -/

/-- Concrete timed recurring master: a 30-minute event at epoch 0 recurring
with a rule. -/
def baseMaster : IntermediateEvent :=
  { id := .plain "uid-1", uid := "uid-1", title := "Weekly"
    startMs := 0, endMs := 1800000, durationMs := 1800000
    isAllDay := false, isCancelled := false, lastModifiedMs := none
    hasRrule := true, recurrenceId := none
    occurrenceToken := .instantTok 0, exdateTokens := [] }

/-- Concrete master whose exclusion list suppresses the second weekly
instant. -/
def exdatedMaster : IntermediateEvent :=
  { baseMaster with exdateTokens := [.instantTok 604800000] }

/-- Concrete weekly 11:30 America/Toronto master: DTSTART 2025-10-07T11:30
local, i.e. 2025-10-07T15:30:00Z, with a 30-minute duration. -/
def torontoMaster : IntermediateEvent :=
  { baseMaster with
    id := .plain "series-dst", uid := "series-dst", title := "Weekly 11:30"
    startMs := 1759851000000, endMs := 1759852800000
    occurrenceToken := .instantTok 1759851000000 }

/-- Concrete override replacing the second weekly instant of `baseMaster`,
moved one hour later, itself inside the window. -/
def movedOverride : IntermediateEvent :=
  { baseMaster with
    id := .withToken "uid-1" (.instantTok 604800000)
    title := "Weekly (moved)"
    startMs := 608400000, endMs := 610200000
    hasRrule := false
    recurrenceId := some (.instantTok 604800000)
    occurrenceToken := .instantTok 604800000 }

/-- Concrete override whose anchor matches no generated instant. -/
def orphanOverride : IntermediateEvent :=
  { movedOverride with
    id := .withToken "uid-1" (.instantTok 999), title := "Orphan"
    recurrenceId := some (.instantTok 999)
    occurrenceToken := .instantTok 999 }

/-- Concrete override anchored at the third weekly instant of `baseMaster`
but moved outside the window. -/
def suppressedOverride : IntermediateEvent :=
  { movedOverride with
    id := .withToken "uid-1" (.instantTok 1209600000)
    title := "Suppressed"
    startMs := -5000000, endMs := -4000000
    recurrenceId := some (.instantTok 1209600000)
    occurrenceToken := .instantTok 1209600000 }

/-- Concrete override map holding a replacing, an orphan and a suppressing
override. -/
def sampleOverrides : List (TemporalToken × IntermediateEvent) :=
  [(.instantTok 604800000, movedOverride),
   (.instantTok 999, orphanOverride),
   (.instantTok 1209600000, suppressedOverride)]

/-- Concrete standalone event, first-emitted of a duplicated identity. -/
def dupEventA : IntermediateEvent :=
  { baseMaster with
    id := .plain "dup", uid := "dup", title := "first"
    hasRrule := false, lastModifiedMs := some 1000 }

/-- Concrete standalone event sharing `dupEventA`'s identity and last-modified
timestamp, emitted second. -/
def dupEventB : IntermediateEvent :=
  { dupEventA with title := "second" }

/-- Concrete non-cancelled source event. -/
def oneSourceEvent : SourceEvent :=
  { id := "evt-1", iCalUid := some "evt-1", title := "Team Sync"
    description := "", location := ""
    startTime := { date := none, dateTime := some "2026-03-01T15:00:00.000Z",
                   timeZone := some "UTC" }
    endTime := { date := none, dateTime := some "2026-03-01T15:30:00.000Z",
                 timeZone := some "UTC" }
    isAllDay := false, isCancelled := false
    lastModifiedDateTime := some "2026-03-01T15:00:00.000Z"
    reminderMinutesBeforeStart := none
    isRecurringMaster := false, seriesMasterId := none }

/-- Empty durable state: no mappings, no destination events. -/
def emptySyncState : SyncState :=
  { mappings := [], dest := { events := [], nextId := 0 } }

/-- Durable state holding one mirrored occurrence `b` and its destination
event. -/
def mappedOnlySyncState : SyncState :=
  { mappings := [{ sourceEventId := "b", googleEventId := 0 }]
    dest := { events := [0], nextId := 1 } }

/-! ## Theorems -/

/-- C2: an occurrence is treated as in-window exactly when its end lies after
the window start and its start before the window end; an occurrence ending at
the window start is excluded, one starting at the window end is excluded, and
one straddling either boundary is included. -/
theorem overlapsWindow_halfOpen :
    (∀ es ee ws we : Int,
      overlapsWindow es ee ws we = true ↔ (ee > ws ∧ es < we)) ∧
    (∀ es ws we : Int, overlapsWindow es ws ws we = false) ∧
    (∀ ee ws we : Int, overlapsWindow we ee ws we = false) ∧
    (∀ es ee ws we : Int, es < ws → ws < ee → ws < we →
      overlapsWindow es ee ws we = true) ∧
    (∀ es ee ws we : Int, ws < we → es < we → we < ee →
      overlapsWindow es ee ws we = true) := by
  refine ⟨?_, ?_, ?_, ?_, ?_⟩ <;> intros <;> simp [overlapsWindow] <;> omega

/-- C2 witness: concrete boundary behaviour of the overlap predicate. -/
theorem overlapsWindow_halfOpen_witness :
    (overlapsWindow 0 10 10 20 = false) ∧
    (overlapsWindow 20 30 10 20 = false) ∧
    (overlapsWindow 5 15 10 20 = true) ∧
    (overlapsWindow 15 25 10 20 = true) :=
  ⟨overlapsWindow_halfOpen.2.1 0 10 20,
   overlapsWindow_halfOpen.2.2.1 30 10 20,
   overlapsWindow_halfOpen.2.2.2.1 5 15 10 20 (by decide) (by decide) (by decide),
   overlapsWindow_halfOpen.2.2.2.2 15 25 10 20 (by decide) (by decide) (by decide)⟩

/-- C10: the destination payload's reminder block is total and clamped: a
missing or negative lead time keeps the calendar default with no overrides,
and a non-negative lead time yields a single popup override of
`min value 40320` minutes. -/
theorem toGoogleEventPayload_reminder_mapping (source : SourceEvent)
    (subscriptionId sourceMode : String) :
    (toGoogleEventPayload source subscriptionId sourceMode).reminders =
      match source.reminderMinutesBeforeStart with
      | none => { useDefault := true, overrides := [] }
      | some v =>
        if v < 0 then { useDefault := true, overrides := [] }
        else { useDefault := false,
               overrides := [{ method := "popup", minutes := min v 40320 }] } := by
  rcases h : source.reminderMinutesBeforeStart with _ | v
  · simp [toGoogleEventPayload, buildReminder, h]
  · simp only [toGoogleEventPayload, buildReminder, h]
    by_cases hv : v < 0
    · simp [hv]
    · simp only [hv, if_false]
      have : max 0 (min v 40320) = min v 40320 :=
        max_eq_right (le_min (by omega) (by norm_num))
      rw [this]

/-- C7: with an unparseable recurrence rule (or no rule engine at all) the
expansion of a master degrades to the master's own interval, emitted exactly
when it overlaps the window, with no other instance; the function is total, so
no error is raised. -/
theorem expandRecurringMaster_degraded (master : IntermediateEvent)
    (windowStartMs windowEndMs : Int) (h : master.hasRrule = true) :
    expandRecurringMaster master none windowStartMs windowEndMs =
      if overlapsWindow master.startMs master.endMs windowStartMs windowEndMs
      then [master] else [] := by
  simp [expandRecurringMaster, h]

/-- C7 witness: the degraded expansion of the concrete master inside and
outside a window. -/
theorem expandRecurringMaster_degraded_witness :
    expandRecurringMaster baseMaster none (-1000000) 1000000000 = [baseMaster] ∧
    expandRecurringMaster baseMaster none 1800000 1000000000 = [] := by
  constructor
  · rw [expandRecurringMaster_degraded baseMaster (-1000000) 1000000000 rfl]
    decide
  · rw [expandRecurringMaster_degraded baseMaster 1800000 1000000000 rfl]
    decide

/-- C6: no occurrence whose identity token is exclusion-listed appears in the
expanded output of a parsed rule, even when the rule generates that instant
inside the window. -/
theorem expandRecurringMaster_excludes_exdates (master : IntermediateEvent)
    (starts : List Int) (windowStartMs windowEndMs : Int)
    (e : IntermediateEvent)
    (he : e ∈ expandRecurringMaster master (some starts) windowStartMs windowEndMs) :
    e.occurrenceToken ∉ master.exdateTokens := by
  by_cases hr : master.hasRrule
  · rw [expandRecurringMaster, hr] at he
    simp only [Bool.not_true, Bool.false_eq_true, if_false, List.mem_filterMap] at he
    obtain ⟨s, _, hone⟩ := he
    simp only [expandOne] at hone
    split_ifs at hone with h1 h2
    all_goals cases hone
    all_goals simpa [buildExpandedOccurrence] using h1
  · rw [expandRecurringMaster] at he
    simp [hr] at he

/-- C6 witness: the second weekly instant of `exdatedMaster` is generated
inside the window but suppressed by the exclusion list; the emitted occurrence
carries a token outside that list. -/
theorem expandRecurringMaster_excludes_exdates_witness :
    expandRecurringMaster exdatedMaster (some [0, 604800000]) (-1) 1000000000 =
      [buildExpandedOccurrence exdatedMaster 0 1800000] ∧
    overlapsWindow 604800000 606600000 (-1) 1000000000 = true ∧
    (buildExpandedOccurrence exdatedMaster 0 1800000).occurrenceToken ∉
      exdatedMaster.exdateTokens :=
  ⟨by decide, by decide,
   expandRecurringMaster_excludes_exdates exdatedMaster [0, 604800000]
     (-1) 1000000000 _ (by decide)⟩

/-- C8 counterexample: two selected records with the same identity and equal
last-modified timestamps keep the later-emitted record, not the
earlier-emitted one the claim names. -/
theorem dedupe_equal_timestamps_keeps_later :
    getLastModifiedEpoch dupEventA = getLastModifiedEpoch dupEventB ∧
    getById (dedupeById [dupEventA, dupEventB]) dupEventA.id = some dupEventB ∧
    ¬ dupEventB = dupEventA := by decide

/-- C8 amended: when two selected records share the same final identity, the
one with the later last-modified timestamp is kept, and on equal timestamps
the later-emitted record is kept. -/
theorem dedupeById_pair (e1 e2 : IntermediateEvent) (h : e2.id = e1.id) :
    getById (dedupeById [e1, e2]) e1.id =
      some (if getLastModifiedEpoch e2 ≥ getLastModifiedEpoch e1 then e2 else e1) := by
  unfold dedupeById
  simp only [List.foldl]
  rw [show dedupeStep [] e1 = [(e1.id, e1)] from rfl]
  unfold dedupeStep
  rw [show getById [(e1.id, e1)] e2.id = some e1 by simp [getById, h]]
  by_cases hc : getLastModifiedEpoch e2 ≥ getLastModifiedEpoch e1
  · simp [hc, setById, h, getById]
  · simp [hc, getById]

/-- C8 amended witness: the concrete equal-timestamp pair resolves to the
later record. -/
theorem dedupeById_pair_witness :
    getById (dedupeById [dupEventA, dupEventB]) dupEventA.id =
      some (if getLastModifiedEpoch dupEventB ≥ getLastModifiedEpoch dupEventA
            then dupEventB else dupEventA) :=
  dedupeById_pair dupEventA dupEventB rfl

/-- Helper: a global replace pass leaves a non-backslash head in place. -/
theorem replaceEscape_cons_ne (seconds : List Char) (repl c : Char)
    (t : List Char) (h : ¬ c = '\\') :
    replaceEscape seconds repl (c :: t) = c :: replaceEscape seconds repl t := by
  cases t with
  | nil => rfl
  | cons c2 rest => simp [replaceEscape, h]

/-- Helper: a global replace pass consumes a matched escape pair at the head. -/
theorem replaceEscape_hit (seconds : List Char) (repl c2 : Char)
    (t : List Char) (h : c2 ∈ seconds) :
    replaceEscape seconds repl ('\\' :: c2 :: t) =
      repl :: replaceEscape seconds repl t := by
  simp [replaceEscape, h]

/-- Helper: a global replace pass steps over an unmatched escape head. -/
theorem replaceEscape_miss (seconds : List Char) (repl c2 : Char)
    (t : List Char) (h : c2 ∉ seconds) :
    replaceEscape seconds repl ('\\' :: c2 :: t) =
      '\\' :: replaceEscape seconds repl (c2 :: t) := by
  simp [replaceEscape, h]

/-- C9 counterexample: on the three-character input backslash-backslash-n the
sequential replacement pipeline yields backslash + newline, while the single
left-to-right decoding of the escape convention yields backslash + the letter
n; the two disagree. -/
theorem unescapeIcsText_double_backslash_n :
    unescapeIcsText ['\\', '\\', 'n'] = ['\\', '\n'] ∧
    singlePassDecode ['\\', '\\', 'n'] = ['\\', 'n'] ∧
    ¬ unescapeIcsText ['\\', '\\', 'n'] = singlePassDecode ['\\', '\\', 'n'] := by
  decide

/-- C9 amended: on raw text in which every backslash opens one of the simple
escapes `\n`, `\,`, `\;` (so no doubled backslash and no trailing backslash),
the parser's four sequential global replacements coincide with a single
left-to-right decoding of the escape convention. -/
theorem unescapeIcsText_eq_singlePass (input : List Char)
    (h : simpleEscaped input = true) :
    unescapeIcsText input = singlePassDecode input := by
  induction input using simpleEscaped.induct with
  | case1 => rfl
  | case2 c => rfl
  | case3 c2 rest ih =>
    rw [simpleEscaped, if_pos rfl, Bool.and_eq_true, decide_eq_true_eq] at h
    obtain ⟨hc2, hrest⟩ := h
    have ihr := ih hrest
    rcases hc2 with hn | hcm | hsc
    · subst hn
      unfold unescapeIcsText at ihr ⊢
      rw [replaceEscape_hit ['n', 'N'] '\n' 'n' rest (by decide),
        replaceEscape_cons_ne [','] ',' '\n' _ (by decide),
        replaceEscape_cons_ne [';'] ';' '\n' _ (by decide),
        replaceEscape_cons_ne ['\\'] '\\' '\n' _ (by decide),
        singlePassDecode, if_pos ⟨rfl, rfl⟩, ihr]
    · subst hcm
      unfold unescapeIcsText at ihr ⊢
      rw [replaceEscape_miss ['n', 'N'] '\n' ',' rest (by decide),
        replaceEscape_cons_ne ['n', 'N'] '\n' ',' rest (by decide),
        replaceEscape_hit [','] ',' ',' _ (by decide),
        replaceEscape_cons_ne [';'] ';' ',' _ (by decide),
        replaceEscape_cons_ne ['\\'] '\\' ',' _ (by decide),
        singlePassDecode]
      rw [if_neg (by decide), if_pos ⟨rfl, rfl⟩, ihr]
    · subst hsc
      unfold unescapeIcsText at ihr ⊢
      rw [replaceEscape_miss ['n', 'N'] '\n' ';' rest (by decide),
        replaceEscape_cons_ne ['n', 'N'] '\n' ';' rest (by decide),
        replaceEscape_miss [','] ',' ';' _ (by decide),
        replaceEscape_cons_ne [','] ',' ';' _ (by decide),
        replaceEscape_hit [';'] ';' ';' _ (by decide),
        replaceEscape_cons_ne ['\\'] '\\' ';' _ (by decide),
        singlePassDecode]
      rw [if_neg (by decide), if_neg (by decide), if_pos ⟨rfl, rfl⟩, ihr]
  | case4 c1 c2 rest hc1 ih =>
    rw [simpleEscaped, if_neg hc1] at h
    have ihr := ih h
    unfold unescapeIcsText at ihr ⊢
    rw [replaceEscape_cons_ne _ _ _ _ hc1,
      replaceEscape_cons_ne _ _ _ _ hc1,
      replaceEscape_cons_ne _ _ _ _ hc1,
      replaceEscape_cons_ne _ _ _ _ hc1,
      singlePassDecode]
    rw [if_neg (fun hh => hc1 hh.1), if_neg (fun hh => hc1 hh.1),
      if_neg (fun hh => hc1 hh.1), if_neg (fun hh => hc1 hh.1), ihr]

/-- C9 amended witness: a concrete simple-escaped text decodes identically
under both schemes. -/
theorem unescapeIcsText_eq_singlePass_witness :
    simpleEscaped ['R', 'o', 'o', 'm', '\\', ';', 'A', '\\', 'n', 'B'] = true ∧
    unescapeIcsText ['R', 'o', 'o', 'm', '\\', ';', 'A', '\\', 'n', 'B'] =
      singlePassDecode ['R', 'o', 'o', 'm', '\\', ';', 'A', '\\', 'n', 'B'] :=
  ⟨by decide,
   unescapeIcsText_eq_singlePass
     ['R', 'o', 'o', 'm', '\\', ';', 'A', '\\', 'n', 'B'] (by decide)⟩

/-- Helper: deleting one key leaves lookups of other keys unchanged. -/
theorem lookupToken_delete_ne (ovs : List (TemporalToken × IntermediateEvent))
    (t t' : TemporalToken) (h : ¬ t' = t) :
    lookupToken (deleteToken ovs t) t' = lookupToken ovs t' := by
  induction ovs with
  | nil => rfl
  | cons p rest ih =>
    obtain ⟨k, v⟩ := p
    by_cases hkt : k = t
    · subst hkt
      have hkt' : ¬ k = t' := fun hh => h hh.symm
      simp [deleteToken, lookupToken, hkt']
    · by_cases hk2 : k = t'
      · simp [deleteToken, hkt, lookupToken, hk2, h]
      · simp [deleteToken, hkt, lookupToken, hk2, ih]

/-- Helper: a lookup misses exactly when the key is absent. -/
theorem lookupToken_eq_none (ovs : List (TemporalToken × IntermediateEvent))
    (t : TemporalToken) :
    lookupToken ovs t = none ↔ t ∉ ovs.map Prod.fst := by
  induction ovs with
  | nil => simp [lookupToken]
  | cons p rest ih =>
    obtain ⟨k, v⟩ := p
    by_cases hk : k = t
    · subst hk
      simp [lookupToken]
    · have hne : ¬ t = k := fun hh => hk hh.symm
      simp only [lookupToken, if_neg hk, List.map_cons, List.mem_cons, ih]
      simp [not_or, hne]

/-- Helper: with distinct keys, a stored pair is what its key looks up. -/
theorem lookupToken_of_mem (ovs : List (TemporalToken × IntermediateEvent))
    (t : TemporalToken) (ov : IntermediateEvent) (hmem : (t, ov) ∈ ovs)
    (hk : (ovs.map Prod.fst).Nodup) : lookupToken ovs t = some ov := by
  induction ovs with
  | nil => cases hmem
  | cons p rest ih =>
    obtain ⟨k, v⟩ := p
    rcases List.mem_cons.mp hmem with heq | hmem2
    · cases heq
      simp [lookupToken]
    · have hknotin : k ∉ rest.map Prod.fst := (List.nodup_cons.mp hk).1
      have hk2 : ¬ k = t := by
        intro hkt
        subst hkt
        exact hknotin (List.mem_map.mpr ⟨(k, ov), hmem2, rfl⟩)
      simp only [lookupToken, if_neg hk2]
      exact ih hmem2 (List.nodup_cons.mp hk).2

/-- Helper: deletion produces a sublist of the map. -/
theorem deleteToken_sublist (ovs : List (TemporalToken × IntermediateEvent))
    (t : TemporalToken) : List.Sublist (deleteToken ovs t) ovs := by
  induction ovs with
  | nil => exact List.Sublist.refl _
  | cons p rest ih =>
    obtain ⟨k, v⟩ := p
    by_cases hkt : k = t
    · simp only [deleteToken, if_pos hkt]
      exact List.sublist_cons_self _ _
    · simp only [deleteToken, if_neg hkt]
      exact ih.cons₂ _

/-- Helper: with distinct keys, deletion equals filtering the key away. -/
theorem deleteToken_eq_filter (ovs : List (TemporalToken × IntermediateEvent))
    (t : TemporalToken) (hk : (ovs.map Prod.fst).Nodup) :
    deleteToken ovs t = ovs.filter (fun p => !decide (p.1 = t)) := by
  induction ovs with
  | nil => rfl
  | cons p rest ih =>
    obtain ⟨k, v⟩ := p
    have hknotin : k ∉ rest.map Prod.fst := (List.nodup_cons.mp hk).1
    have htl := (List.nodup_cons.mp hk).2
    by_cases hkt : k = t
    · subst hkt
      have hfix : rest.filter (fun p => !decide (p.1 = k)) = rest := by
        apply List.filter_eq_self.mpr
        intro p hp
        simp only [Bool.not_eq_true', decide_eq_false_iff_not]
        intro hpk
        exact hknotin (List.mem_map.mpr ⟨p, hp, hpk⟩)
      simp [deleteToken, hfix]
    · simp [deleteToken, hkt, ih htl]

/-- Helper: pointwise-equal selector functions give equal filterMap results. -/
theorem filterMap_ext {α β : Type} (l : List α) (f g : α → Option β)
    (h : ∀ a ∈ l, f a = g a) : l.filterMap f = l.filterMap g := by
  induction l with
  | nil => rfl
  | cons a rest ih =>
    rw [List.filterMap_cons, List.filterMap_cons, h a (List.mem_cons_self a rest),
      ih (fun b hb => h b (List.mem_cons_of_mem a hb))]

/-- Characterization of the override-application loop: with distinct override
keys and distinct recurrence tokens, the selected list is the pointwise merge
`mergeOne` of each expanded occurrence, and the remaining map holds exactly
the overrides whose key matches no expanded token. -/
theorem applyOverrides_spec (windowStartMs windowEndMs : Int)
    (expanded : List IntermediateEvent) :
    ∀ ovs : List (TemporalToken × IntermediateEvent),
      (ovs.map Prod.fst).Nodup →
      (expanded.filterMap IntermediateEvent.recurrenceId).Nodup →
      applyOverrides expanded ovs windowStartMs windowEndMs =
        (expanded.filterMap (mergeOne ovs windowStartMs windowEndMs),
         unmatchedOverrides expanded ovs) := by
  induction expanded with
  | nil =>
    intro ovs hk ht
    simp [applyOverrides, unmatchedOverrides]
  | cons occ rest ih =>
    intro ovs hk ht
    rcases hrid : occ.recurrenceId with _ | t
    · have ht2 : (rest.filterMap IntermediateEvent.recurrenceId).Nodup := by
        rwa [List.filterMap_cons, hrid] at ht
      have hunm : unmatchedOverrides (occ :: rest) ovs = unmatchedOverrides rest ovs := by
        simp [unmatchedOverrides, List.filterMap_cons, hrid]
      simp only [applyOverrides, hrid, ih ovs hk ht2, List.filterMap_cons, mergeOne, hunm]
    · rw [List.filterMap_cons, hrid] at ht
      have htok : t ∉ rest.filterMap IntermediateEvent.recurrenceId :=
        (List.nodup_cons.mp ht).1
      have ht2 : (rest.filterMap IntermediateEvent.recurrenceId).Nodup :=
        (List.nodup_cons.mp ht).2
      rcases hl : lookupToken ovs t with _ | ov
      · have hnotin : t ∉ ovs.map Prod.fst := (lookupToken_eq_none ovs t).mp hl
        have hunm : unmatchedOverrides (occ :: rest) ovs = unmatchedOverrides rest ovs := by
          apply List.filter_congr
          intro p hp
          have hpt : ¬ p.1 = t := by
            intro hpt
            exact hnotin (hpt ▸ List.mem_map.mpr ⟨p, hp, rfl⟩)
          simp [List.filterMap_cons, hrid, hpt]
        simp only [applyOverrides, hrid, hl, ih ovs hk ht2, List.filterMap_cons,
          mergeOne, hunm]
      · have hkdel : ((deleteToken ovs t).map Prod.fst).Nodup :=
          ((deleteToken_sublist ovs t).map Prod.fst).nodup hk
        have hrest : rest.filterMap (mergeOne (deleteToken ovs t) windowStartMs windowEndMs) =
            rest.filterMap (mergeOne ovs windowStartMs windowEndMs) := by
          apply filterMap_ext
          intro occ2 hocc2
          rcases hrid2 : occ2.recurrenceId with _ | t2
          · simp [mergeOne, hrid2]
          · have ht2mem : t2 ∈ rest.filterMap IntermediateEvent.recurrenceId :=
              List.mem_filterMap.mpr ⟨occ2, hocc2, hrid2⟩
            have hne : ¬ t2 = t := fun hh => htok (hh ▸ ht2mem)
            simp [mergeOne, hrid2, lookupToken_delete_ne ovs t t2 hne]
        have hunm : unmatchedOverrides rest (deleteToken ovs t) =
            unmatchedOverrides (occ :: rest) ovs := by
          rw [unmatchedOverrides, deleteToken_eq_filter ovs t hk, List.filter_filter]
          apply List.filter_congr
          intro p hp
          simp [List.filterMap_cons, hrid, not_or, and_comm, Bool.and_comm]
        simp only [applyOverrides, hrid, hl, ih (deleteToken ovs t) hkdel ht2,
          List.filterMap_cons, mergeOne, hunm, hrest]
        by_cases hov : overlapsWindow ov.startMs ov.endMs windowStartMs windowEndMs = true
        · simp [hov]
        · simp [hov]

/-- Helper: a successful lookup returns a stored pair. -/
theorem mem_of_lookupToken (ovs : List (TemporalToken × IntermediateEvent))
    (t : TemporalToken) (ov : IntermediateEvent)
    (h : lookupToken ovs t = some ov) : (t, ov) ∈ ovs := by
  induction ovs with
  | nil => cases h
  | cons p rest ih =>
    obtain ⟨k, v⟩ := p
    by_cases hk : k = t
    · subst hk
      have hv : lookupToken ((k, v) :: rest) k = some v := by simp [lookupToken]
      rw [hv] at h
      cases h
      exact List.mem_cons_self _ _
    · simp only [lookupToken, if_neg hk] at h
      exact List.mem_cons_of_mem _ (ih h)

/-- Helper: what a pointwise merge can produce — the occurrence itself, or an
override stored under its recurrence token that overlaps the window. -/
theorem mergeOne_eq_some (ovs : List (TemporalToken × IntermediateEvent))
    (windowStartMs windowEndMs : Int) (occ2 x : IntermediateEvent)
    (h : mergeOne ovs windowStartMs windowEndMs occ2 = some x) :
    x = occ2 ∨ (∃ t2, occ2.recurrenceId = some t2 ∧ (t2, x) ∈ ovs ∧
      overlapsWindow x.startMs x.endMs windowStartMs windowEndMs = true) := by
  rcases hrid2 : occ2.recurrenceId with _ | t2
  · simp only [mergeOne, hrid2] at h
    cases h
    exact Or.inl rfl
  · simp only [mergeOne, hrid2] at h
    rcases hlk2 : lookupToken ovs t2 with _ | ov2
    · simp only [hlk2] at h
      cases h
      exact Or.inl rfl
    · simp only [hlk2] at h
      by_cases hov2 : overlapsWindow ov2.startMs ov2.endMs windowStartMs windowEndMs = true
      · rw [if_pos hov2] at h
        cases h
        exact Or.inr ⟨t2, rfl, mem_of_lookupToken ovs t2 _ hlk2, hov2⟩
      · rw [if_neg hov2] at h
        cases h

/-- Helper: membership in the standalone leftover emission. -/
theorem mem_emitLeftoverOverrides (ovs2 : List (TemporalToken × IntermediateEvent))
    (windowStartMs windowEndMs : Int) (x : IntermediateEvent) :
    x ∈ emitLeftoverOverrides ovs2 windowStartMs windowEndMs ↔
      ((∃ p ∈ ovs2, p.2 = x) ∧
        overlapsWindow x.startMs x.endMs windowStartMs windowEndMs = true) := by
  simp [emitLeftoverOverrides, List.mem_filter, List.mem_map]

/-- C5: for one recurring series, an override whose anchor matches an expanded
occurrence replaces it when the override itself overlaps the window and
suppresses the instance entirely when it does not, and an override whose
anchor matches no expanded occurrence is emitted standalone exactly when it
overlaps the window.  Hypotheses record map invariants (distinct override
keys), distinct recurrence tokens among expanded occurrences, and that
override records are distinct from generated instances. -/
theorem processSeries_override_semantics
    (master : IntermediateEvent) (starts : List Int)
    (ovs : List (TemporalToken × IntermediateEvent))
    (windowStartMs windowEndMs : Int)
    (hk : (ovs.map Prod.fst).Nodup)
    (ht : ((expandRecurringMaster master (some starts) windowStartMs windowEndMs).filterMap
        IntermediateEvent.recurrenceId).Nodup)
    (hdisj : ∀ p ∈ ovs,
      p.2 ∉ expandRecurringMaster master (some starts) windowStartMs windowEndMs) :
    (∀ t ov occ, (t, ov) ∈ ovs →
      occ ∈ expandRecurringMaster master (some starts) windowStartMs windowEndMs →
      occ.recurrenceId = some t →
      (overlapsWindow ov.startMs ov.endMs windowStartMs windowEndMs = true →
        ov ∈ processSeries master (some starts) ovs windowStartMs windowEndMs ∧
        occ ∉ processSeries master (some starts) ovs windowStartMs windowEndMs) ∧
      (overlapsWindow ov.startMs ov.endMs windowStartMs windowEndMs = false →
        ov ∉ processSeries master (some starts) ovs windowStartMs windowEndMs ∧
        occ ∉ processSeries master (some starts) ovs windowStartMs windowEndMs)) ∧
    (∀ t ov, (t, ov) ∈ ovs →
      (∀ occ ∈ expandRecurringMaster master (some starts) windowStartMs windowEndMs,
        ¬ occ.recurrenceId = some t) →
      (ov ∈ processSeries master (some starts) ovs windowStartMs windowEndMs ↔
        overlapsWindow ov.startMs ov.endMs windowStartMs windowEndMs = true)) := by
  have hout : processSeries master (some starts) ovs windowStartMs windowEndMs =
      (expandRecurringMaster master (some starts) windowStartMs windowEndMs).filterMap
        (mergeOne ovs windowStartMs windowEndMs) ++
      emitLeftoverOverrides
        (unmatchedOverrides
          (expandRecurringMaster master (some starts) windowStartMs windowEndMs) ovs)
        windowStartMs windowEndMs := by
    rw [processSeries, applyOverrides_spec windowStartMs windowEndMs _ ovs hk ht]
  constructor
  · intro t ov occ hmem hocc hrid
    have hlk : lookupToken ovs t = some ov := lookupToken_of_mem ovs t ov hmem hk
    have hove : ov ∉ expandRecurringMaster master (some starts) windowStartMs windowEndMs :=
      hdisj (t, ov) hmem
    have hocc_not : occ ∉ processSeries master (some starts) ovs windowStartMs windowEndMs := by
      rw [hout]
      intro hcon
      rcases List.mem_append.mp hcon with hE | hL
      · obtain ⟨occ2, hocc2, hm⟩ := List.mem_filterMap.mp hE
        rcases mergeOne_eq_some ovs windowStartMs windowEndMs occ2 occ hm with heq | hov
        · subst heq
          simp only [mergeOne, hrid, hlk] at hm
          by_cases hovw : overlapsWindow ov.startMs ov.endMs windowStartMs windowEndMs = true
          · rw [if_pos hovw] at hm
            cases hm
            exact hove hocc
          · rw [if_neg hovw] at hm
            cases hm
        · obtain ⟨t2, _, hmem2, _⟩ := hov
          exact hdisj (t2, occ) hmem2 hocc
      · obtain ⟨⟨p, hp, hpx⟩, _⟩ := (mem_emitLeftoverOverrides _ _ _ _).mp hL
        have := hdisj p (List.mem_filter.mp hp).1
        rw [hpx] at this
        exact this hocc
    constructor
    · intro hovl
      refine ⟨?_, hocc_not⟩
      rw [hout]
      refine List.mem_append.mpr (Or.inl (List.mem_filterMap.mpr ⟨occ, hocc, ?_⟩))
      simp only [mergeOne, hrid, hlk]
      rw [if_pos hovl]
    · intro hovl
      refine ⟨?_, hocc_not⟩
      rw [hout]
      intro hcon
      rcases List.mem_append.mp hcon with hE | hL
      · obtain ⟨occ2, hocc2, hm⟩ := List.mem_filterMap.mp hE
        rcases mergeOne_eq_some ovs windowStartMs windowEndMs occ2 ov hm with heq | hov
        · subst heq
          exact hove hocc2
        · obtain ⟨t2, _, _, hov2⟩ := hov
          rw [hovl] at hov2
          cases hov2
      · obtain ⟨_, hov2⟩ := (mem_emitLeftoverOverrides _ _ _ _).mp hL
        rw [hovl] at hov2
        cases hov2
  · intro t ov hmem hnone
    have hove : ov ∉ expandRecurringMaster master (some starts) windowStartMs windowEndMs :=
      hdisj (t, ov) hmem
    rw [hout]
    constructor
    · intro hcon
      rcases List.mem_append.mp hcon with hE | hL
      · obtain ⟨occ2, hocc2, hm⟩ := List.mem_filterMap.mp hE
        rcases mergeOne_eq_some ovs windowStartMs windowEndMs occ2 ov hm with heq | hov
        · subst heq
          exact absurd hocc2 hove
        · obtain ⟨t2, _, _, hovl2⟩ := hov
          exact hovl2
      · exact ((mem_emitLeftoverOverrides _ _ _ _).mp hL).2
    · intro hovl
      refine List.mem_append.mpr (Or.inr ?_)
      refine (mem_emitLeftoverOverrides _ _ _ _).mpr ⟨⟨(t, ov), ?_, rfl⟩, hovl⟩
      refine List.mem_filter.mpr ⟨hmem, ?_⟩
      simp only [decide_eq_true_eq]
      intro hcon
      obtain ⟨occ2, hocc2, hrid2⟩ := List.mem_filterMap.mp hcon
      exact hnone occ2 hocc2 hrid2

/-- C5 witness: in the concrete series, the in-window override replaces its
generated instance, the out-of-window override suppresses its instance
entirely, and the orphan override is emitted standalone. -/
theorem processSeries_override_semantics_witness :
    movedOverride ∈ processSeries baseMaster (some [0, 604800000, 1209600000])
      sampleOverrides (-1) 2000000000000 ∧
    buildExpandedOccurrence baseMaster 604800000 606600000 ∉
      processSeries baseMaster (some [0, 604800000, 1209600000])
        sampleOverrides (-1) 2000000000000 ∧
    suppressedOverride ∉ processSeries baseMaster (some [0, 604800000, 1209600000])
      sampleOverrides (-1) 2000000000000 ∧
    buildExpandedOccurrence baseMaster 1209600000 1211400000 ∉
      processSeries baseMaster (some [0, 604800000, 1209600000])
        sampleOverrides (-1) 2000000000000 ∧
    orphanOverride ∈ processSeries baseMaster (some [0, 604800000, 1209600000])
      sampleOverrides (-1) 2000000000000 := by
  have H := processSeries_override_semantics baseMaster [0, 604800000, 1209600000]
    sampleOverrides (-1) 2000000000000 (by decide) (by decide) (by decide)
  obtain ⟨Ha, Hb⟩ := H
  have h1 := Ha (.instantTok 604800000) movedOverride
    (buildExpandedOccurrence baseMaster 604800000 606600000)
    (by decide) (by decide) (by decide)
  have h2 := Ha (.instantTok 1209600000) suppressedOverride
    (buildExpandedOccurrence baseMaster 1209600000 1211400000)
    (by decide) (by decide) (by decide)
  have h3 := Hb (.instantTok 999) orphanOverride (by decide) (by decide)
  obtain ⟨hm1, hm2⟩ := h1.1 (by decide)
  obtain ⟨hs1, hs2⟩ := h2.2 (by decide)
  exact ⟨hm1, hm2, hs1, hs2, h3.mpr (by decide)⟩

/-- Helper: with a UTC process clock the rrule-output normalization is the
identity on instants. -/
theorem normalizeRRuleOccurrenceMs_utc (x : Int) :
    normalizeRRuleOccurrenceMs (fun _ => 0) true x = x := by
  simp [normalizeRRuleOccurrenceMs, toEpochMsForTimeZone]

/-- C4: whenever the re-anchoring loop converges on every generated floating
instant, each occurrence emitted by the tzid weekly expansion shows the same
zone-local wall-clock time-of-day as the master's start — the absolute instant
is the floating wall clock re-anchored in the recurrence zone at that date, so
across a DST transition the UTC offsets differ rather than the UTC
time-of-day staying fixed. -/
theorem expandWeeklyTzMaster_preserves_wallclock (off : Int → Int)
    (master : IntermediateEvent) (count : Nat) (windowStartMs windowEndMs : Int)
    (hconv : ∀ f ∈ weeklyFloatStarts (toFloatingUtcDate off master.startMs) count,
      off (rezoneFloating off f) = f - rezoneFloating off f) :
    ∀ e ∈ expandWeeklyTzMaster off master count windowStartMs windowEndMs,
      (e.startMs + off e.startMs) % 86400000 =
        (master.startMs + off master.startMs) % 86400000 := by
  intro e he
  rw [expandWeeklyTzMaster] at he
  by_cases hr : master.hasRrule
  · rw [expandRecurringMaster, hr] at he
    simp only [Bool.not_true, Bool.false_eq_true, if_false, List.mem_filterMap] at he
    obtain ⟨s, hs, hone⟩ := he
    have hstart : e.startMs = s := by
      simp only [expandOne] at hone
      split_ifs at hone
      all_goals cases hone
      all_goals simp [buildExpandedOccurrence]
    rw [weeklyTzRuleStarts, List.mem_map] at hs
    obtain ⟨f, hf, hfs⟩ := hs
    rw [normalizeRRuleOccurrenceMs_utc] at hfs
    have hsum : s + off s = f := by
      have hcv := hconv f hf
      rw [hfs] at hcv
      omega
    rw [weeklyFloatStarts, List.mem_map] at hf
    obtain ⟨k, _, hk⟩ := hf
    rw [hstart, hsum, ← hk, toFloatingUtcDate, wallClockAsUtcMs]
    omega
  · rw [expandRecurringMaster] at he
    simp [hr] at he

/-- C4 witness: the concrete Toronto weekly master keeps its 11:30 local wall
clock on both sides of the 2025-11-02 transition (the floating time-of-day
41400000 ms = 11:30), while its occurrences' UTC times-of-day differ:
55800000 ms (15:30Z, offset -4h) before the transition and 59400000 ms
(16:30Z, offset -5h) after it. -/
theorem expandWeeklyTzMaster_preserves_wallclock_witness :
    (buildExpandedOccurrence torontoMaster 1761665400000 1761667200000 ∈
      expandWeeklyTzMaster torontoOffsetMs torontoMaster 6
        1759276800000 1764460800000) ∧
    (buildExpandedOccurrence torontoMaster 1762273800000 1762275600000 ∈
      expandWeeklyTzMaster torontoOffsetMs torontoMaster 6
        1759276800000 1764460800000) ∧
    ((buildExpandedOccurrence torontoMaster 1761665400000 1761667200000).startMs +
      torontoOffsetMs (buildExpandedOccurrence torontoMaster
        1761665400000 1761667200000).startMs) % 86400000 =
      (torontoMaster.startMs + torontoOffsetMs torontoMaster.startMs) % 86400000 ∧
    ((buildExpandedOccurrence torontoMaster 1762273800000 1762275600000).startMs +
      torontoOffsetMs (buildExpandedOccurrence torontoMaster
        1762273800000 1762275600000).startMs) % 86400000 =
      (torontoMaster.startMs + torontoOffsetMs torontoMaster.startMs) % 86400000 ∧
    (torontoMaster.startMs + torontoOffsetMs torontoMaster.startMs) % 86400000 =
      41400000 ∧
    (buildExpandedOccurrence torontoMaster 1761665400000
      1761667200000).startMs % 86400000 = 55800000 ∧
    (buildExpandedOccurrence torontoMaster 1762273800000
      1762275600000).startMs % 86400000 = 59400000 :=
  ⟨by decide, by decide,
   expandWeeklyTzMaster_preserves_wallclock torontoOffsetMs torontoMaster 6
     1759276800000 1764460800000 (by decide) _ (by decide),
   expandWeeklyTzMaster_preserves_wallclock torontoOffsetMs torontoMaster 6
     1759276800000 1764460800000 (by decide) _ (by decide),
   by decide, by decide, by decide⟩

/-! ### Map and mapping-store lemmas for the reconciliation cycle -/

/-- Helper: setting a key makes it retrievable. -/
theorem jsGet_jsSet_self {α : Type} (m : List (String × α)) (k : String) (v : α) :
    jsGet (jsSet m k v) k = some v := by
  induction m with
  | nil => simp [jsSet, jsGet]
  | cons p rest ih =>
    obtain ⟨k', v'⟩ := p
    by_cases hk : k' = k
    · simp [jsSet, hk, jsGet]
    · simp [jsSet, hk, jsGet, ih]

/-- Helper: setting a key leaves other keys untouched. -/
theorem jsGet_jsSet_ne {α : Type} (m : List (String × α)) (k k' : String) (v : α)
    (h : ¬ k' = k) : jsGet (jsSet m k v) k' = jsGet m k' := by
  induction m with
  | nil =>
    have hne : ¬ k = k' := fun hh => h hh.symm
    simp [jsSet, jsGet, hne]
  | cons p rest ih =>
    obtain ⟨k2, v2⟩ := p
    by_cases hk2 : k2 = k
    · subst hk2
      have hne : ¬ k2 = k' := fun hh => h hh.symm
      simp [jsSet, jsGet, hne]
    · by_cases hk3 : k2 = k'
      · subst hk3
        simp [jsSet, hk2, jsGet]
      · simp [jsSet, hk2, jsGet, hk3, ih]

/-- Helper: the entries after a set are the old entries plus possibly the new
pair. -/
theorem jsSet_mem {α : Type} (m : List (String × α)) (k : String) (v : α)
    (p : String × α) (hp : p ∈ jsSet m k v) : p ∈ m ∨ p = (k, v) := by
  induction m with
  | nil => simpa [jsSet] using hp
  | cons q rest ih =>
    obtain ⟨k', v'⟩ := q
    by_cases hk : k' = k
    · simp only [jsSet, if_pos hk, List.mem_cons] at hp
      rcases hp with hp | hp
      · exact Or.inr hp
      · exact Or.inl (List.mem_cons_of_mem _ hp)
    · simp only [jsSet, if_neg hk, List.mem_cons] at hp
      rcases hp with hp | hp
      · exact Or.inl (hp ▸ List.mem_cons_self _ _)
      · rcases ih hp with h2 | h2
        · exact Or.inl (List.mem_cons_of_mem _ h2)
        · exact Or.inr h2

/-- Helper: keys after a set are the old keys plus possibly the new one. -/
theorem jsSet_keys_mem {α : Type} (m : List (String × α)) (k : String) (v : α)
    (x : String) (hx : x ∈ (jsSet m k v).map Prod.fst) :
    x ∈ m.map Prod.fst ∨ x = k := by
  obtain ⟨p, hp, hxp⟩ := List.mem_map.mp hx
  rcases jsSet_mem m k v p hp with h2 | h2
  · exact Or.inl (hxp ▸ List.mem_map.mpr ⟨p, h2, rfl⟩)
  · subst h2
    exact Or.inr hxp.symm

/-- Helper: a set keeps the keys free of duplicates. -/
theorem jsSet_keys_nodup {α : Type} (m : List (String × α)) (k : String) (v : α)
    (h : (m.map Prod.fst).Nodup) : ((jsSet m k v).map Prod.fst).Nodup := by
  induction m with
  | nil => simp [jsSet]
  | cons p rest ih =>
    obtain ⟨k', v'⟩ := p
    rw [List.map_cons, List.nodup_cons] at h
    by_cases hk : k' = k
    · subst hk
      simpa [jsSet] using h
    · simp only [jsSet, if_neg hk, List.map_cons, List.nodup_cons]
      refine ⟨fun hx => ?_, ih h.2⟩
      rcases jsSet_keys_mem rest k v k' hx with h2 | h2
      · exact h.1 h2
      · exact hk h2

/-- Helper: a missing key reads back as `none`. -/
theorem jsGet_eq_none_iff {α : Type} (m : List (String × α)) (k : String) :
    jsGet m k = none ↔ k ∉ m.map Prod.fst := by
  induction m with
  | nil => simp [jsGet]
  | cons p rest ih =>
    obtain ⟨k', v⟩ := p
    by_cases hk : k' = k
    · subst hk
      simp [jsGet]
    · have hne : ¬ k = k' := fun hh => hk hh.symm
      simp only [jsGet, if_neg hk, List.map_cons, List.mem_cons, ih]
      simp [not_or, hne]

/-- Helper: a successful read returns a stored pair. -/
theorem jsGet_mem {α : Type} (m : List (String × α)) (k : String) (v : α)
    (h : jsGet m k = some v) : (k, v) ∈ m := by
  induction m with
  | nil => cases h
  | cons p rest ih =>
    obtain ⟨k', v'⟩ := p
    by_cases hk : k' = k
    · subst hk
      have hv : jsGet ((k', v') :: rest) k' = some v' := by simp [jsGet]
      rw [hv] at h
      cases h
      exact List.mem_cons_self _ _
    · simp only [jsGet, if_neg hk] at h
      exact List.mem_cons_of_mem _ (ih h)

/-- Helper: an upserted key reads back its new destination id. -/
theorem mappingGid_upsert_self (ms : List EventMapping) (k : String) (g : Nat) :
    mappingGid (upsertMapping ms k g) k = some g := by
  induction ms with
  | nil => simp [upsertMapping, mappingGid]
  | cons m rest ih =>
    by_cases hk : m.sourceEventId = k
    · simp [upsertMapping, hk, mappingGid]
    · simp [upsertMapping, hk, mappingGid, ih]

/-- Helper: an upsert leaves other keys untouched. -/
theorem mappingGid_upsert_ne (ms : List EventMapping) (k k' : String) (g : Nat)
    (h : ¬ k' = k) : mappingGid (upsertMapping ms k g) k' = mappingGid ms k' := by
  induction ms with
  | nil =>
    have hne : ¬ k = k' := fun hh => h hh.symm
    simp [upsertMapping, mappingGid, hne]
  | cons m rest ih =>
    by_cases hk : m.sourceEventId = k
    · have hne : ¬ (k : String) = k' := fun hh => h hh.symm
      simp [upsertMapping, hk, mappingGid, hne]
    · by_cases hk2 : m.sourceEventId = k'
      · simp [upsertMapping, hk, mappingGid, hk2, h]
      · simp [upsertMapping, hk, mappingGid, hk2, ih]

/-- Helper: an upsert result holds old records or the new one. -/
theorem upsertMapping_mem (ms : List EventMapping) (k : String) (g : Nat)
    (m1 : EventMapping) (h : m1 ∈ upsertMapping ms k g) :
    m1 ∈ ms ∨ m1 = { sourceEventId := k, googleEventId := g } := by
  induction ms with
  | nil => simpa [upsertMapping] using h
  | cons m rest ih =>
    by_cases hk : m.sourceEventId = k
    · simp only [upsertMapping, if_pos hk, List.mem_cons] at h
      rcases h with h | h
      · exact Or.inr h
      · exact Or.inl (List.mem_cons_of_mem _ h)
    · simp only [upsertMapping, if_neg hk, List.mem_cons] at h
      rcases h with h | h
      · exact Or.inl (h ▸ List.mem_cons_self _ _)
      · rcases ih h with h2 | h2
        · exact Or.inl (List.mem_cons_of_mem _ h2)
        · exact Or.inr h2

/-- Helper: keys after an upsert are the old keys plus possibly the new one. -/
theorem upsertMapping_keys_mem (ms : List EventMapping) (k : String) (g : Nat)
    (x : String) (hx : x ∈ (upsertMapping ms k g).map (·.sourceEventId)) :
    x ∈ ms.map (·.sourceEventId) ∨ x = k := by
  obtain ⟨m1, hm1, hx1⟩ := List.mem_map.mp hx
  rcases upsertMapping_mem ms k g m1 hm1 with h | h
  · exact Or.inl (hx1 ▸ List.mem_map.mpr ⟨m1, h, rfl⟩)
  · subst h
    exact Or.inr hx1.symm

/-- Helper: an upsert keeps mapping keys free of duplicates. -/
theorem upsertMapping_keys_nodup (ms : List EventMapping) (k : String) (g : Nat)
    (h : (ms.map (·.sourceEventId)).Nodup) :
    ((upsertMapping ms k g).map (·.sourceEventId)).Nodup := by
  induction ms with
  | nil => simp [upsertMapping]
  | cons m rest ih =>
    rw [List.map_cons, List.nodup_cons] at h
    by_cases hk : m.sourceEventId = k
    · simp only [upsertMapping, if_pos hk, List.map_cons, List.nodup_cons]
      exact ⟨hk ▸ h.1, h.2⟩
    · simp only [upsertMapping, if_neg hk, List.map_cons, List.nodup_cons]
      refine ⟨fun hx => ?_, ih h.2⟩
      rcases upsertMapping_keys_mem rest k g _ hx with h2 | h2
      · exact h.1 h2
      · exact hk h2

/-- Helper: upserting a fresh destination id keeps destination ids free of
duplicates. -/
theorem upsertMapping_gids_nodup (ms : List EventMapping) (k : String) (g : Nat)
    (hg : ∀ m1 ∈ ms, ¬ m1.googleEventId = g)
    (h : (ms.map (·.googleEventId)).Nodup) :
    ((upsertMapping ms k g).map (·.googleEventId)).Nodup := by
  induction ms with
  | nil => simp [upsertMapping]
  | cons m rest ih =>
    rw [List.map_cons, List.nodup_cons] at h
    by_cases hk : m.sourceEventId = k
    · simp only [upsertMapping, if_pos hk, List.map_cons, List.nodup_cons]
      refine ⟨fun hx => ?_, h.2⟩
      obtain ⟨m2, hm2, hx2⟩ := List.mem_map.mp hx
      exact hg m2 (List.mem_cons_of_mem _ hm2) hx2
    · simp only [upsertMapping, if_neg hk, List.map_cons, List.nodup_cons]
      refine ⟨fun hx => ?_, ih (fun m1 hm1 => hg m1 (List.mem_cons_of_mem _ hm1)) h.2⟩
      obtain ⟨m2, hm2, hx2⟩ := List.mem_map.mp hx
      rcases upsertMapping_mem rest k g m2 hm2 with h2 | h2
      · exact h.1 (List.mem_map.mpr ⟨m2, h2, hx2⟩)
      · subst h2
        exact hg m (List.mem_cons_self _ _) hx2.symm

/-- Helper: a missing mapping key reads back as `none`. -/
theorem mappingGid_eq_none_iff (ms : List EventMapping) (k : String) :
    mappingGid ms k = none ↔ k ∉ ms.map (·.sourceEventId) := by
  induction ms with
  | nil => simp [mappingGid]
  | cons m rest ih =>
    by_cases hk : m.sourceEventId = k
    · subst hk
      simp [mappingGid]
    · have hne : ¬ k = m.sourceEventId := fun hh => hk hh.symm
      simp only [mappingGid, if_neg hk, List.map_cons, List.mem_cons, ih]
      simp [not_or, hne]

/-- Helper: a successful mapping read returns a stored record. -/
theorem mappingGid_mem (ms : List EventMapping) (k : String) (g : Nat)
    (h : mappingGid ms k = some g) :
    ∃ m1 ∈ ms, m1.sourceEventId = k ∧ m1.googleEventId = g := by
  induction ms with
  | nil => cases h
  | cons m rest ih =>
    by_cases hk : m.sourceEventId = k
    · rw [mappingGid, if_pos hk] at h
      cases h
      exact ⟨m, List.mem_cons_self _ _, hk, rfl⟩
    · rw [mappingGid, if_neg hk] at h
      obtain ⟨m1, hm1, hp⟩ := ih h
      exact ⟨m1, List.mem_cons_of_mem _ hm1, hp⟩

/-- Helper: re-upserting the stored value leaves the store unchanged. -/
theorem upsertMapping_self_eq (ms : List EventMapping) (k : String) (g : Nat)
    (h : mappingGid ms k = some g) : upsertMapping ms k g = ms := by
  induction ms with
  | nil => cases h
  | cons m rest ih =>
    by_cases hk : m.sourceEventId = k
    · rw [mappingGid, if_pos hk] at h
      cases h
      rw [upsertMapping, if_pos hk, ← hk]
    · rw [mappingGid, if_neg hk] at h
      rw [upsertMapping, if_neg hk, ih h]

/-- Helper: one unfolding step of the mapping deletion. -/
theorem deleteMapping_cons (m : EventMapping) (rest : List EventMapping)
    (k : String) :
    deleteMapping (m :: rest) k =
      if m.sourceEventId = k then deleteMapping rest k
      else m :: deleteMapping rest k := by
  by_cases hk : m.sourceEventId = k <;> simp [deleteMapping, hk]

/-- Helper: deleting one key leaves other keys' mappings unchanged. -/
theorem mappingGid_delete_ne (ms : List EventMapping) (k k' : String)
    (h : ¬ k' = k) : mappingGid (deleteMapping ms k) k' = mappingGid ms k' := by
  induction ms with
  | nil => rfl
  | cons m rest ih =>
    rw [deleteMapping_cons]
    by_cases hk : m.sourceEventId = k
    · rw [if_pos hk, ih, mappingGid, if_neg (fun hh => h (hh.symm.trans hk))]
    · rw [if_neg hk]
      by_cases hk2 : m.sourceEventId = k'
      · rw [mappingGid, if_pos hk2, mappingGid, if_pos hk2]
      · rw [mappingGid, if_neg hk2, mappingGid, if_neg hk2, ih]

/-- Helper: a deletion retains only records of other keys. -/
theorem deleteMapping_mem (ms : List EventMapping) (k : String)
    (m1 : EventMapping) (h : m1 ∈ deleteMapping ms k) :
    m1 ∈ ms ∧ ¬ m1.sourceEventId = k := by
  have := List.mem_filter.mp h
  exact ⟨this.1, by simpa using this.2⟩

/-- Helper: a deletion is a sublist of the store. -/
theorem deleteMapping_sublist (ms : List EventMapping) (k : String) :
    List.Sublist (deleteMapping ms k) ms :=
  List.filter_sublist ms

/-- Helper: the active map built by the cycle has distinct keys and each pair
stores the event under its own id, for any starting accumulator with those
properties. -/
theorem buildActive_fold_invariant (events : List SourceEvent) :
    ∀ acc : List (String × SourceEvent),
      (acc.map Prod.fst).Nodup → (∀ p ∈ acc, p.2.id = p.1) →
      ((events.foldl
        (fun acc e => if e.isCancelled then acc else jsSet acc e.id e) acc).map
          Prod.fst).Nodup ∧
      (∀ p ∈ events.foldl
        (fun acc e => if e.isCancelled then acc else jsSet acc e.id e) acc,
        p.2.id = p.1) := by
  induction events with
  | nil => exact fun acc h1 h2 => ⟨h1, h2⟩
  | cons e rest ih =>
    intro acc h1 h2
    rw [List.foldl_cons]
    by_cases hc : e.isCancelled
    · simpa [hc] using ih acc h1 h2
    · simp only [hc, if_false, Bool.false_eq_true]
      refine ih (jsSet acc e.id e) (jsSet_keys_nodup acc e.id e h1) ?_
      intro p hp
      rcases jsSet_mem acc e.id e p hp with h3 | h3
      · exact h2 p h3
      · subst h3
        rfl

/-- Helper: distinct keys of the active map. -/
theorem buildActive_keys_nodup (events : List SourceEvent) :
    ((buildActive events).map Prod.fst).Nodup :=
  (buildActive_fold_invariant events [] (by simp) (by simp)).1

/-- Helper: each active pair stores the event under its own id. -/
theorem buildActive_id (events : List SourceEvent) :
    ∀ p ∈ buildActive events, p.2.id = p.1 :=
  (buildActive_fold_invariant events [] (by simp) (by simp)).2

/-- Helper: setting a fresh key appends it. -/
theorem jsSet_append {α : Type} (m : List (String × α)) (k : String) (v : α)
    (h : k ∉ m.map Prod.fst) : jsSet m k v = m ++ [(k, v)] := by
  induction m with
  | nil => rfl
  | cons p rest ih =>
    obtain ⟨k', v'⟩ := p
    rw [List.map_cons, List.mem_cons] at h
    have hk : ¬ k' = k := fun hh => h (Or.inl hh.symm)
    rw [jsSet, if_neg hk, List.cons_append, ih (fun hh => h (Or.inr hh))]

/-- Helper: the generalized snapshot fold with distinct record keys appends
the keyed records to the accumulator. -/
theorem mappingSnapshot_fold (ms : List EventMapping) :
    ∀ acc : List (String × Nat),
      (∀ m1 ∈ ms, m1.sourceEventId ∉ acc.map Prod.fst) →
      (ms.map (·.sourceEventId)).Nodup →
      ms.foldl (fun acc m => jsSet acc m.sourceEventId m.googleEventId) acc =
        acc ++ ms.map (fun m => (m.sourceEventId, m.googleEventId)) := by
  induction ms with
  | nil => simp
  | cons m rest ih =>
    intro acc hacc hnd
    rw [List.map_cons, List.nodup_cons] at hnd
    rw [List.foldl_cons, jsSet_append acc _ _ (hacc m (List.mem_cons_self _ _)),
      ih (acc ++ [(m.sourceEventId, m.googleEventId)]) ?_ hnd.2, List.map_cons]
    · simp
    · intro m1 hm1
      rw [List.map_append, List.mem_append]
      rintro (hc | hc)
      · exact hacc m1 (List.mem_cons_of_mem _ hm1) hc
      · simp only [List.map_cons, List.map_nil, List.mem_singleton] at hc
        exact hnd.1 (hc ▸ List.mem_map.mpr ⟨m1, hm1, rfl⟩)

/-- Helper: with distinct record keys the snapshot map is the record list
itself, keyed. -/
theorem mappingSnapshot_eq (ms : List EventMapping)
    (h : (ms.map (·.sourceEventId)).Nodup) :
    mappingSnapshot ms = ms.map (fun m => (m.sourceEventId, m.googleEventId)) := by
  simpa [mappingSnapshot] using mappingSnapshot_fold ms [] (by simp) h

/-- Helper: the keyed record list reads back like the record store. -/
theorem jsGet_pairify (ms : List EventMapping) (k : String) :
    jsGet (ms.map (fun m => (m.sourceEventId, m.googleEventId))) k =
      mappingGid ms k := by
  induction ms with
  | nil => rfl
  | cons m rest ih =>
    by_cases hk : m.sourceEventId = k
    · simp [jsGet, mappingGid, hk]
    · simp [jsGet, mappingGid, hk, ih]

/-- Helper: with distinct record keys the snapshot reads back like the
record store. -/
theorem jsGet_mappingSnapshot (ms : List EventMapping)
    (h : (ms.map (·.sourceEventId)).Nodup) (k : String) :
    jsGet (mappingSnapshot ms) k = mappingGid ms k := by
  rw [mappingSnapshot_eq ms h, jsGet_pairify]

/-- Helper: with distinct record keys the snapshot keys are the record keys. -/
theorem mappingSnapshot_keys (ms : List EventMapping)
    (h : (ms.map (·.sourceEventId)).Nodup) :
    (mappingSnapshot ms).map Prod.fst = ms.map (·.sourceEventId) := by
  rw [mappingSnapshot_eq ms h, List.map_map]
  rfl

/-- Helper: membership in the computed stale set. -/
theorem mem_findStaleOutlookIds (mapped active : List String) (x : String) :
    x ∈ findStaleOutlookIds mapped active ↔ (x ∈ mapped ∧ x ∉ active) := by
  simp [findStaleOutlookIds, List.mem_filter]

/-- Helper: no stale ids when every mapped id is active. -/
theorem findStaleOutlookIds_eq_nil (mapped active : List String)
    (h : ∀ x ∈ mapped, x ∈ active) : findStaleOutlookIds mapped active = [] := by
  rw [List.eq_nil_iff_forall_not_mem]
  intro x hx
  rw [mem_findStaleOutlookIds] at hx
  exact hx.2 (h x hx.1)

/-- Helper: creating a fresh destination event and upserting its mapping
preserves state well-formedness. -/
theorem goodState_create (st : SyncState) (k : String) (h : goodState st) :
    goodState
      { mappings := upsertMapping st.mappings k st.dest.nextId
        dest := { events := st.dest.events ++ [st.dest.nextId],
                  nextId := st.dest.nextId + 1 } } := by
  obtain ⟨h1, h2, h3, h4, h5⟩ := h
  refine ⟨upsertMapping_keys_nodup _ _ _ h1,
    upsertMapping_gids_nodup _ _ _ (fun m1 hm1 => Nat.ne_of_lt (h4 m1 hm1)) h2,
    ?_, ?_, ?_⟩
  · rw [List.nodup_append]
    refine ⟨h3, List.nodup_singleton _, ?_⟩
    intro x hx
    simp only [List.mem_singleton]
    exact fun hc => absurd (h5 x hx) (by rw [hc]; exact Nat.lt_irrefl _)
  · intro m1 hm1
    rcases upsertMapping_mem _ _ _ _ hm1 with hc | hc
    · exact Nat.lt_succ_of_lt (h4 m1 hc)
    · rw [hc]
      exact Nat.lt_succ_self _
  · intro g hg
    rw [List.mem_append, List.mem_singleton] at hg
    rcases hg with hg | hg
    · exact Nat.lt_succ_of_lt (h5 g hg)
    · rw [hg]
      exact Nat.lt_succ_self _

/-- Helper: the create/update loop postcondition lifts over a create or
heal-recreate step for the head occurrence. -/
theorem activeLoopPost_step_create (snapshot : List (String × Nat))
    (rest : List (String × SourceEvent)) (st out : SyncState)
    (a : String) (e : SourceEvent) (hae : e.id = a)
    (hanotr : a ∉ rest.map Prod.fst)
    (hpost : activeLoopPost snapshot rest
      { mappings := upsertMapping st.mappings e.id st.dest.nextId
        dest := { events := st.dest.events ++ [st.dest.nextId],
                  nextId := st.dest.nextId + 1 } } out) :
    activeLoopPost snapshot ((a, e) :: rest) st out := by
  obtain ⟨h1, h2, h3, h4, h5, h6⟩ := hpost
  refine ⟨h1, Nat.le_trans (Nat.le_succ _) h2, ?_, ?_, ?_, ?_⟩
  · intro x hx
    exact h3 x (List.mem_append_left _ hx)
  · intro p hp
    rcases List.mem_cons.mp hp with hp | hp
    · subst hp
      refine ⟨st.dest.nextId, ?_, ?_, Or.inl (Nat.le_refl _)⟩
      · rw [h5 a hanotr]
        show mappingGid (upsertMapping st.mappings e.id st.dest.nextId) a =
          some st.dest.nextId
        rw [← hae]
        exact mappingGid_upsert_self st.mappings e.id st.dest.nextId
      · exact h3 st.dest.nextId
          (List.mem_append_right _ (List.mem_singleton.mpr rfl))
    · obtain ⟨g, hg1, hg2, hg3⟩ := h4 p hp
      refine ⟨g, hg1, hg2, ?_⟩
      rcases hg3 with hg3 | hg3
      · exact Or.inl (Nat.le_trans (Nat.le_succ _) hg3)
      · exact Or.inr hg3
  · intro k hk
    simp only [List.map_cons, List.mem_cons] at hk
    push_neg at hk
    rw [h5 k hk.2]
    show mappingGid (upsertMapping st.mappings e.id st.dest.nextId) k =
      mappingGid st.mappings k
    refine mappingGid_upsert_ne st.mappings e.id k st.dest.nextId ?_
    rw [hae]
    exact hk.1
  · intro m1 hm1
    rcases h6 m1 hm1 with hc | hc
    · rcases upsertMapping_keys_mem st.mappings e.id st.dest.nextId _ hc with hc2 | hc2
      · exact Or.inl hc2
      · refine Or.inr ?_
        simp only [List.map_cons, List.mem_cons]
        exact Or.inl (by rw [hc2, hae])
    · exact Or.inr (List.mem_cons_of_mem _ hc)

/-- Helper: the create/update loop postcondition lifts over a successful
update step for the head occurrence. -/
theorem activeLoopPost_step_update (snapshot : List (String × Nat))
    (rest : List (String × SourceEvent)) (st out : SyncState)
    (a : String) (e : SourceEvent) (g : Nat)
    (hanotr : a ∉ rest.map Prod.fst)
    (hmg : mappingGid st.mappings a = some g)
    (hgs : jsGet snapshot a = some g)
    (hmem : g ∈ st.dest.events)
    (hpost : activeLoopPost snapshot rest st out) :
    activeLoopPost snapshot ((a, e) :: rest) st out := by
  obtain ⟨h1, h2, h3, h4, h5, h6⟩ := hpost
  refine ⟨h1, h2, h3, ?_, ?_, ?_⟩
  · intro p hp
    rcases List.mem_cons.mp hp with hp | hp
    · subst hp
      exact ⟨g, by rw [h5 a hanotr]; exact hmg, h3 g hmem, Or.inr hgs⟩
    · exact h4 p hp
  · intro k hk
    simp only [List.map_cons, List.mem_cons] at hk
    push_neg at hk
    exact h5 k hk.2
  · intro m1 hm1
    rcases h6 m1 hm1 with hc | hc
    · exact Or.inl hc
    · exact Or.inr (List.mem_cons_of_mem _ hc)

/-- Specification of the create/update loop of `runCycle`. -/
theorem processActive_spec (snapshot : List (String × Nat))
    (active : List (String × SourceEvent)) :
    ∀ (st : SyncState) (m : SyncMetrics),
      goodState st →
      (active.map Prod.fst).Nodup →
      (∀ p ∈ active, p.2.id = p.1) →
      (∀ p ∈ active, jsGet snapshot p.1 = mappingGid st.mappings p.1) →
      (∀ k g, jsGet snapshot k = some g → g < st.dest.nextId) →
      activeLoopPost snapshot active st (processActive active snapshot st m).1 := by
  induction active with
  | nil =>
    intro st m hgood _ _ _ _
    simp only [processActive]
    exact ⟨hgood, Nat.le_refl _, fun x hx => hx, by simp, fun k _ => rfl,
      fun m1 hm1 => Or.inl (List.mem_map.mpr ⟨m1, hm1, rfl⟩)⟩
  | cons pe rest ih =>
    obtain ⟨a, e⟩ := pe
    intro st m hgood hnd hpid hcoup hsnap
    have hae : e.id = a := hpid (a, e) (List.mem_cons_self _ _)
    rw [List.map_cons, List.nodup_cons] at hnd
    have hanotr : a ∉ rest.map Prod.fst := hnd.1
    have hpid2 : ∀ p ∈ rest, p.2.id = p.1 :=
      fun p hp => hpid p (List.mem_cons_of_mem _ hp)
    have hcoup2 : ∀ p ∈ rest, jsGet snapshot p.1 = mappingGid st.mappings p.1 :=
      fun p hp => hcoup p (List.mem_cons_of_mem _ hp)
    have hner : ∀ p ∈ rest, ¬ p.1 = e.id := by
      intro p hp hh
      rw [hae] at hh
      exact hanotr (hh ▸ List.mem_map.mpr ⟨p, hp, rfl⟩)
    rcases hget : jsGet snapshot e.id with _ | g
    · simp only [processActive, hget]
      apply activeLoopPost_step_create snapshot rest st _ a e hae hanotr
      apply ih _ _ (goodState_create st e.id hgood) hnd.2 hpid2 ?_ ?_
      · intro p hp
        show jsGet snapshot p.1 =
          mappingGid (upsertMapping st.mappings e.id st.dest.nextId) p.1
        rw [mappingGid_upsert_ne _ _ _ _ (hner p hp)]
        exact hcoup2 p hp
      · intro k g2 hg2
        exact Nat.lt_succ_of_lt (hsnap k g2 hg2)
    · have hgs : jsGet snapshot a = some g := by
        rw [← hae]
        exact hget
      by_cases hmem : g ∈ st.dest.events
      · have hmga : mappingGid st.mappings a = some g := by
          have h0 := hcoup (a, e) (List.mem_cons_self _ _)
          rw [← h0]
          exact hgs
        simp only [processActive, hget, if_pos hmem]
        rw [upsertMapping_self_eq st.mappings e.id g (by rw [hae]; exact hmga)]
        show activeLoopPost snapshot ((a, e) :: rest) st
          (processActive rest snapshot st { m with updated := m.updated + 1 }).1
        apply activeLoopPost_step_update snapshot rest st _ a e g hanotr hmga hgs hmem
        exact ih st _ hgood hnd.2 hpid2 hcoup2 hsnap
      · simp only [processActive, hget, if_neg hmem]
        apply activeLoopPost_step_create snapshot rest st _ a e hae hanotr
        apply ih _ _ (goodState_create st e.id hgood) hnd.2 hpid2 ?_ ?_
        · intro p hp
          show jsGet snapshot p.1 =
            mappingGid (upsertMapping st.mappings e.id st.dest.nextId) p.1
          rw [mappingGid_upsert_ne _ _ _ _ (hner p hp)]
          exact hcoup2 p hp
        · intro k g2 hg2
          exact Nat.lt_succ_of_lt (hsnap k g2 hg2)

/-- Specification of the stale-deletion loop of `runCycle`. -/
theorem processStale_spec (snapshot : List (String × Nat))
    (activeKeys : List String) (stale : List String) :
    ∀ (st : SyncState) (m : SyncMetrics),
      (∀ sid ∈ stale, sid ∉ activeKeys) →
      (∀ sid ∈ stale, ∀ g, jsGet snapshot sid = some g →
        ∀ k ∈ activeKeys, ∀ ga, mappingGid st.mappings k = some ga → ¬ ga = g) →
      st.dest.events.Nodup →
      staleLoopPost snapshot activeKeys stale st (processStale stale snapshot st m).1 := by
  induction stale with
  | nil =>
    intro st m _ _ hdest
    simp only [processStale]
    exact ⟨fun k _ => rfl, fun k _ g _ hg => hg, fun x hx => hx, hdest,
      List.Sublist.refl _, by simp⟩
  | cons sid rest ih =>
    intro st m hact hdisj hdest
    have hact2 : ∀ s ∈ rest, s ∉ activeKeys :=
      fun s hs => hact s (List.mem_cons_of_mem _ hs)
    have hsid_not_active : sid ∉ activeKeys := hact sid (List.mem_cons_self _ _)
    have hkne : ∀ k ∈ activeKeys, ¬ k = sid :=
      fun k hk hh => hsid_not_active (hh ▸ hk)
    rcases hget : jsGet snapshot sid with _ | g
    · simp only [processStale, hget]
      have hdisj2 : ∀ s ∈ rest, ∀ g, jsGet snapshot s = some g →
          ∀ k ∈ activeKeys, ∀ ga, mappingGid st.mappings k = some ga → ¬ ga = g :=
        fun s hs => hdisj s (List.mem_cons_of_mem _ hs)
      obtain ⟨h1, h2, h3, h4, h5, h6⟩ := ih st m hact2 hdisj2 hdest
      refine ⟨h1, h2, h3, h4, h5, ?_⟩
      intro s hs g hg
      rcases List.mem_cons.mp hs with hs | hs
      · subst hs
        rw [hget] at hg
        cases hg
      · exact h6 s hs g hg
    · simp only [processStale, hget]
      have hdisj1 : ∀ s ∈ rest, ∀ g2, jsGet snapshot s = some g2 →
          ∀ k ∈ activeKeys, ∀ ga,
            mappingGid (deleteMapping st.mappings sid) k = some ga → ¬ ga = g2 := by
        intro s hs g2 hg2 k hk ga hga
        rw [mappingGid_delete_ne st.mappings sid k (hkne k hk)] at hga
        exact hdisj s (List.mem_cons_of_mem _ hs) g2 hg2 k hk ga hga
      obtain ⟨h1, h2, h3, h4, h5, h6⟩ :=
        ih { mappings := deleteMapping st.mappings sid
             dest := { st.dest with events := st.dest.events.erase g } }
          { m with deleted := m.deleted + 1 } hact2 hdisj1 (hdest.erase g)
      refine ⟨?_, ?_, ?_, h4, List.Sublist.trans h5 (deleteMapping_sublist _ _), ?_⟩
      · intro k hk
        rw [h1 k hk]
        exact mappingGid_delete_ne st.mappings sid k (hkne k hk)
      · intro k hk g2 hmg2 hgm2
        have hne : ¬ g2 = g := hdisj sid (List.mem_cons_self _ _) g hget k hk g2 hmg2
        refine h2 k hk g2 ?_ ?_
        · rw [mappingGid_delete_ne st.mappings sid k (hkne k hk)]
          exact hmg2
        · exact (List.mem_erase_of_ne hne).mpr hgm2
      · intro x hx
        exact List.mem_of_mem_erase (h3 x hx)
      · intro s hs g2 hg2
        rcases List.mem_cons.mp hs with hs | hs
        · rw [hs, hget] at hg2
          injection hg2 with hg2e
          constructor
          · intro m1 hm1
            rw [hs]
            exact (deleteMapping_mem st.mappings sid m1 (h5.subset hm1)).2
          · intro hcon
            have hmem2 := h3 g2 hcon
            rw [← hg2e] at hmem2
            rw [List.Nodup.mem_erase_iff hdest] at hmem2
            exact hmem2.1 rfl
        · exact h6 s hs g2 hg2

/-- Helper: with distinct keys and distinct destination ids, distinct snapshot
keys hold distinct destination ids. -/
theorem mappingSnapshot_gid_inj (ms : List EventMapping)
    (hk : (ms.map (·.sourceEventId)).Nodup)
    (hg : (ms.map (·.googleEventId)).Nodup)
    (k1 k2 : String) (g1 g2 : Nat)
    (h1 : jsGet (mappingSnapshot ms) k1 = some g1)
    (h2 : jsGet (mappingSnapshot ms) k2 = some g2)
    (hne : ¬ k1 = k2) : ¬ g1 = g2 := by
  rw [jsGet_mappingSnapshot ms hk] at h1 h2
  obtain ⟨m1, hm1, hk1, hg1⟩ := mappingGid_mem _ _ _ h1
  obtain ⟨m2, hm2, hk2, hg2⟩ := mappingGid_mem _ _ _ h2
  intro hgg
  have heq : m1 = m2 :=
    List.inj_on_of_nodup_map hg hm1 hm2 (by rw [hg1, hg2, hgg])
  exact hne (by rw [← hk1, ← hk2, heq])

/-- Specification of a full reconciliation cycle on a well-formed state: the
result mirrors the active set exactly (every active occurrence mapped to a
live destination event and no other mapping left), mapping keys stay
distinct, the destination stays duplicate-free, and every stale snapshot
entry loses both its mapping record and its destination event. -/
theorem runCycle_spec (events : List SourceEvent) (st0 : SyncState)
    (h : goodState st0) :
    synced events (runCycle events st0).1 ∧
    (((runCycle events st0).1.mappings.map (·.sourceEventId)).Nodup) ∧
    (runCycle events st0).1.dest.events.Nodup ∧
    (∀ sid g, jsGet (mappingSnapshot st0.mappings) sid = some g →
      sid ∉ (buildActive events).map Prod.fst →
      (∀ m1 ∈ (runCycle events st0).1.mappings, ¬ m1.sourceEventId = sid) ∧
      g ∉ (runCycle events st0).1.dest.events) := by
  have hSget : ∀ k, jsGet (mappingSnapshot st0.mappings) k =
      mappingGid st0.mappings k := jsGet_mappingSnapshot st0.mappings h.1
  have hsnap_bound : ∀ k g, jsGet (mappingSnapshot st0.mappings) k = some g →
      g < st0.dest.nextId := by
    intro k g hg
    rw [hSget] at hg
    obtain ⟨m1, hm1, _, hg1⟩ := mappingGid_mem _ _ _ hg
    exact hg1 ▸ h.2.2.2.1 m1 hm1
  obtain ⟨pa1, pa2, pa3, pa4, pa5, pa6⟩ :=
    processActive_spec (mappingSnapshot st0.mappings) (buildActive events) st0
      { fetched := events.length, considered := events.length,
        created := 0, updated := 0, deleted := 0 }
      h (buildActive_keys_nodup events) (buildActive_id events)
      (fun p _ => hSget p.1) hsnap_bound
  have hact : ∀ sid ∈ findStaleOutlookIds
      ((mappingSnapshot st0.mappings).map Prod.fst)
      ((buildActive events).map Prod.fst),
      sid ∉ (buildActive events).map Prod.fst :=
    fun sid hs => ((mem_findStaleOutlookIds _ _ _).mp hs).2
  have hdisj : ∀ sid ∈ findStaleOutlookIds
      ((mappingSnapshot st0.mappings).map Prod.fst)
      ((buildActive events).map Prod.fst),
      ∀ g, jsGet (mappingSnapshot st0.mappings) sid = some g →
      ∀ k ∈ (buildActive events).map Prod.fst, ∀ ga,
        mappingGid (processActive (buildActive events)
          (mappingSnapshot st0.mappings) st0
          { fetched := events.length, considered := events.length,
            created := 0, updated := 0, deleted := 0 }).1.mappings k = some ga →
        ¬ ga = g := by
    intro sid hsid g hg k hk ga hga
    obtain ⟨p, hp, hpk⟩ := List.mem_map.mp hk
    obtain ⟨g1, hg1, _, hfresh⟩ := pa4 p hp
    rw [hpk] at hg1
    rw [hga] at hg1
    injection hg1 with hg1e
    rcases hfresh with hfresh | hfresh
    · intro hgag
      have hlt := hsnap_bound sid g hg
      rw [← hgag, hg1e] at hlt
      exact absurd hfresh (Nat.not_le_of_lt hlt)
    · rw [hpk] at hfresh
      have hkne : ¬ k = sid := by
        intro hh
        exact ((mem_findStaleOutlookIds _ _ _).mp hsid).2 (hh ▸ hk)
      intro hgag
      exact mappingSnapshot_gid_inj st0.mappings h.1 h.2.1 k sid g1 g
        hfresh hg (hkne) (by rw [← hg1e, hgag])
  obtain ⟨s1, s2, s3, s4, s5, s6⟩ :=
    processStale_spec (mappingSnapshot st0.mappings)
      ((buildActive events).map Prod.fst)
      (findStaleOutlookIds ((mappingSnapshot st0.mappings).map Prod.fst)
        ((buildActive events).map Prod.fst))
      (processActive (buildActive events) (mappingSnapshot st0.mappings) st0
        { fetched := events.length, considered := events.length,
          created := 0, updated := 0, deleted := 0 }).1
      (processActive (buildActive events) (mappingSnapshot st0.mappings) st0
        { fetched := events.length, considered := events.length,
          created := 0, updated := 0, deleted := 0 }).2
      hact hdisj pa1.2.2.1
  simp only [runCycle]
  refine ⟨⟨?_, ?_⟩, ?_, s4, ?_⟩
  · intro p hp
    obtain ⟨g, hg1, hg2, _⟩ := pa4 p hp
    refine ⟨g, ?_, ?_⟩
    · rw [s1 p.1 (List.mem_map.mpr ⟨p, hp, rfl⟩)]
      exact hg1
    · exact s2 p.1 (List.mem_map.mpr ⟨p, hp, rfl⟩) g hg1 hg2
  · intro m1 hm1
    have hm1pa := s5.subset hm1
    rcases pa6 m1 hm1pa with hc | hc
    · by_cases hc2 : m1.sourceEventId ∈ (buildActive events).map Prod.fst
      · exact hc2
      · exfalso
        have hkeysS : m1.sourceEventId ∈ (mappingSnapshot st0.mappings).map Prod.fst := by
          rw [mappingSnapshot_keys st0.mappings h.1]
          exact hc
        have hstale : m1.sourceEventId ∈ findStaleOutlookIds
            ((mappingSnapshot st0.mappings).map Prod.fst)
            ((buildActive events).map Prod.fst) :=
          (mem_findStaleOutlookIds _ _ _).mpr ⟨hkeysS, hc2⟩
        rcases hjs : jsGet (mappingSnapshot st0.mappings) m1.sourceEventId with _ | g0
        · exact ((jsGet_eq_none_iff _ _).mp hjs) hkeysS
        · exact (s6 m1.sourceEventId hstale g0 hjs).1 m1 hm1 rfl
    · exact hc
  · exact pa1.1.sublist (s5.map (·.sourceEventId))
  · intro sid g hg hnot
    have hkeysS : sid ∈ (mappingSnapshot st0.mappings).map Prod.fst := by
      by_contra hcon
      rw [← jsGet_eq_none_iff] at hcon
      rw [hcon] at hg
      cases hg
    have hstale : sid ∈ findStaleOutlookIds
        ((mappingSnapshot st0.mappings).map Prod.fst)
        ((buildActive events).map Prod.fst) :=
      (mem_findStaleOutlookIds _ _ _).mpr ⟨hkeysS, hnot⟩
    exact s6 sid hstale g hg

/-- Helper: when every active occurrence already has a mapping to a live
destination event, the create/update loop leaves the state unchanged and
counts exactly one update per active occurrence. -/
theorem processActive_all_live (snapshot : List (String × Nat))
    (active : List (String × SourceEvent)) :
    ∀ (st : SyncState) (m : SyncMetrics),
      (∀ p ∈ active, p.2.id = p.1) →
      (∀ p ∈ active, ∃ g, jsGet snapshot p.1 = some g ∧ g ∈ st.dest.events ∧
        mappingGid st.mappings p.1 = some g) →
      processActive active snapshot st m =
        (st, { m with updated := m.updated + active.length }) := by
  induction active with
  | nil =>
    intro st m _ _
    simp only [processActive, List.length_nil, Nat.add_zero]
  | cons pe rest ih =>
    obtain ⟨a, e⟩ := pe
    intro st m hpid hlive
    obtain ⟨g, hg1, hg2, hg3⟩ := hlive (a, e) (List.mem_cons_self _ _)
    have hae : e.id = a := hpid (a, e) (List.mem_cons_self _ _)
    rw [show ((a, e) : String × SourceEvent).1 = a from rfl] at hg1 hg3
    rw [← hae] at hg1 hg3
    simp only [processActive, hg1, if_pos hg2]
    rw [upsertMapping_self_eq st.mappings e.id g hg3]
    have hrec := ih st { m with updated := m.updated + 1 }
      (fun p hp => hpid p (List.mem_cons_of_mem _ hp))
      (fun p hp => hlive p (List.mem_cons_of_mem _ hp))
    rw [show ({ st with mappings := st.mappings } : SyncState) = st by rfl]
    rw [hrec]
    have harith : m.updated + 1 + rest.length = m.updated + (rest.length + 1) := by
      omega
    simp only [List.length_cons]
    rw [harith]

/-- Helper: a second cycle on a mirrored well-formed state performs only
updates: zero creates, zero deletes, one update per active occurrence. -/
theorem runCycle_on_synced (events : List SourceEvent) (st : SyncState)
    (hnd : (st.mappings.map (·.sourceEventId)).Nodup)
    (hs : synced events st) :
    (runCycle events st).2.created = 0 ∧
    (runCycle events st).2.deleted = 0 ∧
    (runCycle events st).2.updated = (buildActive events).length := by
  have hlive : ∀ p ∈ buildActive events, ∃ g,
      jsGet (mappingSnapshot st.mappings) p.1 = some g ∧ g ∈ st.dest.events ∧
      mappingGid st.mappings p.1 = some g := by
    intro p hp
    obtain ⟨g, hg1, hg2⟩ := hs.1 p hp
    exact ⟨g, by rw [jsGet_mappingSnapshot st.mappings hnd]; exact hg1, hg2, hg1⟩
  have hstale : findStaleOutlookIds ((mappingSnapshot st.mappings).map Prod.fst)
      ((buildActive events).map Prod.fst) = [] := by
    apply findStaleOutlookIds_eq_nil
    intro x hx
    rw [mappingSnapshot_keys st.mappings hnd] at hx
    obtain ⟨m1, hm1, hx1⟩ := List.mem_map.mp hx
    exact hx1 ▸ hs.2 m1 hm1
  simp only [runCycle]
  rw [processActive_all_live (mappingSnapshot st.mappings) (buildActive events) st _
    (buildActive_id events) hlive, hstale]
  simp [processStale]

/-- C1 counterexample: with one active occurrence and unchanged source data,
the second cycle's updated metric is 1 (the mirrored event is re-updated
unconditionally), so the second run does not perform zero updates. -/
theorem runCycle_second_run_updates_nonzero :
    (runCycle [oneSourceEvent]
      (runCycle [oneSourceEvent] emptySyncState).1).2.created = 0 ∧
    (runCycle [oneSourceEvent]
      (runCycle [oneSourceEvent] emptySyncState).1).2.deleted = 0 ∧
    (runCycle [oneSourceEvent]
      (runCycle [oneSourceEvent] emptySyncState).1).2.updated = 1 ∧
    ¬ (runCycle [oneSourceEvent]
      (runCycle [oneSourceEvent] emptySyncState).1).2.updated = 0 := by
  decide

/-- C1 amended: a second cycle over unchanged source data on a well-formed
initial state performs zero creates and zero deletes, and its updated metric
equals the number of active occurrences — every mirrored event is
re-updated (overwritten), not skipped. -/
theorem runCycle_second_run_metrics (events : List SourceEvent)
    (st0 : SyncState) (h : goodState st0) :
    (runCycle events (runCycle events st0).1).2.created = 0 ∧
    (runCycle events (runCycle events st0).1).2.deleted = 0 ∧
    (runCycle events (runCycle events st0).1).2.updated =
      (buildActive events).length := by
  obtain ⟨hs, hnd, _, _⟩ := runCycle_spec events st0 h
  exact runCycle_on_synced events _ hnd hs

/-- C1 amended witness: the concrete one-event double cycle from the empty
state. -/
theorem runCycle_second_run_metrics_witness :
    (runCycle [oneSourceEvent]
      (runCycle [oneSourceEvent] emptySyncState).1).2.created = 0 ∧
    (runCycle [oneSourceEvent]
      (runCycle [oneSourceEvent] emptySyncState).1).2.deleted = 0 ∧
    (runCycle [oneSourceEvent]
      (runCycle [oneSourceEvent] emptySyncState).1).2.updated =
      (buildActive [oneSourceEvent]).length :=
  runCycle_second_run_metrics [oneSourceEvent] emptySyncState
    (by refine ⟨?_, ?_, ?_, ?_, ?_⟩ <;> simp [emptySyncState])

/-- C3: the computed stale set holds exactly the mapped ids absent from the
active set (mapped a,b,c against active a,c,d yields exactly b), and for each
stale id with a snapshot entry the cycle removes its mapping record and
deletes its destination event. -/
theorem findStale_and_cycle_deletion :
    (∀ (mapped active : List String) (x : String),
      x ∈ findStaleOutlookIds mapped active ↔ (x ∈ mapped ∧ x ∉ active)) ∧
    findStaleOutlookIds ["a", "b", "c"] ["a", "c", "d"] = ["b"] ∧
    (∀ (events : List SourceEvent) (st0 : SyncState), goodState st0 →
      ∀ sid g, jsGet (mappingSnapshot st0.mappings) sid = some g →
        sid ∉ (buildActive events).map Prod.fst →
        (∀ m1 ∈ (runCycle events st0).1.mappings, ¬ m1.sourceEventId = sid) ∧
        g ∉ (runCycle events st0).1.dest.events) :=
  ⟨mem_findStaleOutlookIds, by decide,
   fun events st0 h => (runCycle_spec events st0 h).2.2.2⟩

/-- C3 witness: the stale-set example and a concrete cycle that deletes stale
mapping `b` and its destination event. -/
theorem findStale_and_cycle_deletion_witness :
    ("b" ∈ findStaleOutlookIds ["a", "b", "c"] ["a", "c", "d"] ↔
      ("b" ∈ ["a", "b", "c"] ∧ "b" ∉ ["a", "c", "d"])) ∧
    ((∀ m1 ∈ (runCycle ([] : List SourceEvent) mappedOnlySyncState).1.mappings,
        ¬ m1.sourceEventId = "b") ∧
      0 ∉ (runCycle ([] : List SourceEvent) mappedOnlySyncState).1.dest.events) :=
  ⟨findStale_and_cycle_deletion.1 ["a", "b", "c"] ["a", "c", "d"] "b",
   findStale_and_cycle_deletion.2.2 [] mappedOnlySyncState
     (by refine ⟨?_, ?_, ?_, ?_, ?_⟩ <;> simp [mappedOnlySyncState])
     "b" 0 (by decide) (by decide)⟩

end CalBridge
